import Mathlib

/-!
# Verification of the bustub storage-engine core

Shallow embedding of the repository's seven core source files and proofs
about them:

* `src/primer/trie.cpp`                — copy-on-write trie (`Get`/`Put`/`Remove`)
* `src/buffer/lru_k_replacer.cpp`      — LRU-K victim selector
* `src/buffer/buffer_pool_manager.cpp` — buffer pool (pages, pin counts, latch)
* `src/storage/page/page_guard.cpp`    — scoped page guards
* `src/storage/index/index_iterator.cpp` — leaf iterator
* `src/storage/index/b_plus_tree.cpp`  — B+-tree insert path

C++ `std::map<char, …>` children maps are embedded as association lists
with distinct keys; machine integers that never overflow in the modelled
executions are embedded as `Nat`, with `Int` used where the sentinel
`INVALID_PAGE_ID = -1` matters.
-/

set_option autoImplicit false

namespace BusTrie

variable {V : Type} {α : Type}

/-- `std::map::find`: first entry with the given key. -/
def lookupA : List (Nat × α) → Nat → Option α
  | [], _ => none
  | (c, n) :: rest, c0 => if c = c0 then some n else lookupA rest c0

/-- `std::map::operator[] =`: replace the entry with the given key, or append. -/
def insertA : List (Nat × α) → Nat → α → List (Nat × α)
  | [], c, v => [(c, v)]
  | (c1, n1) :: rest, c, v =>
    if c1 = c then (c, v) :: rest else (c1, n1) :: insertA rest c v

/-- `std::map::erase`: drop the entry with the given key. -/
def eraseA : List (Nat × α) → Nat → List (Nat × α)
  | [], _ => []
  | (c1, n1) :: rest, c =>
    if c1 = c then rest else (c1, n1) :: eraseA rest c

/-- Keys of the association list are pairwise distinct (a `std::map` invariant). -/
def dupFreeKeys : List (Nat × α) → Bool
  | [] => true
  | (c, _) :: rest => !(lookupA rest c).isSome && dupFreeKeys rest

/-- A trie node (`TrieNode` / `TrieNodeWithValue<T>` from `trie.h`): an ordered
children map and, for value nodes, a stored value.  `value = none` is a plain
`TrieNode`, `value = some v` a `TrieNodeWithValue`. -/
inductive TrieNode (V : Type) : Type where
  | mk : List (Nat × TrieNode V) → Option V → TrieNode V

/-- The children map of a node. -/
def TrieNode.children : TrieNode V → List (Nat × TrieNode V)
  | .mk cs _ => cs

/-- The stored value of a node (`none` for a plain node). -/
def TrieNode.value : TrieNode V → Option V
  | .mk _ v => v

@[simp] theorem TrieNode.children_mk (cs : List (Nat × TrieNode V)) (v : Option V) :
    (TrieNode.mk cs v).children = cs := rfl

@[simp] theorem TrieNode.value_mk (cs : List (Nat × TrieNode V)) (v : Option V) :
    (TrieNode.mk cs v).value = v := rfl

/-- A trie is a nullable root pointer (`Trie::root_`). -/
def Trie (V : Type) : Type := Option (TrieNode V)

/-- Children of a nullable node: a null node contributes no children. -/
def childrenOf : Trie V → List (Nat × TrieNode V)
  | none => []
  | some n => n.children

/-- `Trie::Get` walk (`trie.cpp` lines 14–29): follow the key bytes through
the children maps. -/
def getLoop : TrieNode V → List Nat → Option (TrieNode V)
  | n, [] => some n
  | n, c :: rest =>
    match lookupA n.children c with
    | some child => getLoop child rest
    | none => none

/-- `Trie::Get` (`trie.cpp` lines 8–38): walk to the node for the key and
return its value when it is a value node. -/
def Trie.get (t : Trie V) (key : List Nat) : Option V :=
  match t with
  | none => none
  | some root =>
    match getLoop root key with
    | none => none
    | some n => n.value

/-- The clone-and-descend loop of `Trie::Put` (`trie.cpp` lines 64–96) for a
nonempty key suffix `c :: rest` below node `n`: clone `n`, descend into the
child at `c` (a fresh plain node when absent), and at the final byte install a
value node that keeps the existing children at that position. -/
def putGo (v : V) : TrieNode V → Nat → List Nat → TrieNode V
  | n, c, [] =>
    .mk (insertA n.children c (.mk (childrenOf (lookupA n.children c)) (some v))) n.value
  | n, c, c1 :: rest =>
    let child : TrieNode V :=
      match lookupA n.children c with
      | some ch => ch
      | none => .mk [] none
    .mk (insertA n.children c (putGo v child c1 rest)) n.value

/-- `Trie::Put` (`trie.cpp` lines 40–98): empty key stores the value at the
root (keeping its children); otherwise path-copy along the key. -/
def Trie.put (t : Trie V) (key : List Nat) (v : V) : Trie V :=
  match key with
  | [] => some (.mk (childrenOf t) (some v))
  | c :: rest =>
    let root : TrieNode V :=
      match t with
      | some r => r
      | none => .mk [] none
    some (putGo v root c rest)

/-- The backtracking while-loop of `Trie::Remove` (`trie.cpp` lines 144–155 and
166–175), applied at node `n` whose entire subtree at byte `c` has been
deleted: if `n` is a plain node whose only child was `c`, `n` is elided as
well (`none`); otherwise `n` survives with the `c` entry erased. -/
def elideAt (n : TrieNode V) (c : Nat) : Option (TrieNode V) :=
  if n.value.isNone ∧ n.children.length ≤ 1 then none
  else some (.mk (eraseA n.children c) n.value)

/-- The walk/rewire part of `Trie::Remove` (`trie.cpp` lines 117–176) below
node `n` for key suffix `c :: rest`.  Result `none`: the key is absent and the
original trie is returned; `some none`: node `n` itself is elided; `some
(some n1)`: `n` is replaced by `n1`. -/
def removeGo : TrieNode V → Nat → List Nat → Option (Option (TrieNode V))
  | n, c, [] =>
    match lookupA n.children c with
    | none => none
    | some target =>
      match target.value with
      | none => none
      | some _ =>
        if target.children.isEmpty then some (elideAt n c)
        else some (some (.mk (insertA n.children c (.mk target.children none)) n.value))
  | n, c, c1 :: rest =>
    match lookupA n.children c with
    | none => none
    | some child =>
      match removeGo child c1 rest with
      | none => none
      | some none => some (elideAt n c)
      | some (some child1) => some (some (.mk (insertA n.children c child1) n.value))

/-- `Trie::Remove` (`trie.cpp` lines 100–177). -/
def Trie.remove (t : Trie V) (key : List Nat) : Trie V :=
  match t with
  | none => none
  | some root =>
    match key with
    | [] =>
      if root.children.isEmpty then none
      else some (.mk root.children none)
    | c :: rest =>
      match removeGo root c rest with
      | none => some root
      | some res => res

mutual
/-- Representation invariant of a C++ trie node: the children keys are
distinct (they live in a `std::map`) and every child is well formed and
nonempty (a plain node with no children is never created below the root). -/
def nodeWF : TrieNode V → Bool
  | .mk cs _ => dupFreeKeys cs && childrenWF cs

/-- All children in the list are well formed and nonempty. -/
def childrenWF : List (Nat × TrieNode V) → Bool
  | [] => true
  | (_, n) :: rest => (nodeWF n && (n.value.isSome || !n.children.isEmpty)) && childrenWF rest
end

/-- Representation invariant of a C++ trie: a null root, or a well-formed
nonempty root (the API never produces a childless valueless root node:
the empty trie has a null root). -/
def trieWF : Trie V → Bool
  | none => true
  | some root => nodeWF root && (root.value.isSome || !root.children.isEmpty)

/-! Association-list lemmas. -/

@[simp] theorem lookupA_nil (c : Nat) : lookupA ([] : List (Nat × α)) c = none := rfl

theorem lookupA_insertA_self (l : List (Nat × α)) (c : Nat) (v : α) :
    lookupA (insertA l c v) c = some v := by
  induction l with
  | nil => simp [insertA, lookupA]
  | cons p rest ih =>
    obtain ⟨c1, n1⟩ := p
    by_cases h : c1 = c
    · simp [insertA, h, lookupA]
    · simp [insertA, h, lookupA, ih]

theorem lookupA_insertA_ne (l : List (Nat × α)) (c c0 : Nat) (v : α) (h : c ≠ c0) :
    lookupA (insertA l c v) c0 = lookupA l c0 := by
  induction l with
  | nil => simp [insertA, lookupA, h]
  | cons p rest ih =>
    obtain ⟨c1, n1⟩ := p
    by_cases h1 : c1 = c
    · subst h1; simp [insertA, lookupA, h]
    · simp [insertA, h1, lookupA, ih]

theorem lookupA_eraseA_ne (l : List (Nat × α)) (c c0 : Nat) (h : c ≠ c0) :
    lookupA (eraseA l c) c0 = lookupA l c0 := by
  induction l with
  | nil => simp [eraseA]
  | cons p rest ih =>
    obtain ⟨c1, n1⟩ := p
    by_cases h1 : c1 = c
    · subst h1; simp [eraseA, lookupA, h]
    · simp [eraseA, h1, lookupA, ih]

theorem lookupA_eraseA_self (l : List (Nat × α)) (c : Nat) (h : dupFreeKeys l = true) :
    lookupA (eraseA l c) c = none := by
  induction l with
  | nil => simp [eraseA]
  | cons p rest ih =>
    obtain ⟨c1, n1⟩ := p
    simp only [dupFreeKeys, Bool.and_eq_true, Bool.not_eq_true'] at h
    by_cases h1 : c1 = c
    · subst h1
      have h1 : lookupA rest c1 = none := by
        cases hx : lookupA rest c1 with
        | none => rfl
        | some x => rw [hx] at h; simp at h
      simpa [eraseA] using h1
    · simp [eraseA, h1, lookupA, ih h.2]

theorem insertA_ne_nil (l : List (Nat × α)) (c : Nat) (v : α) : insertA l c v ≠ [] := by
  cases l with
  | nil => simp [insertA]
  | cons p rest =>
    obtain ⟨c1, n1⟩ := p
    by_cases h : c1 = c <;> simp [insertA, h]

theorem length_eraseA_ge (l : List (Nat × α)) (c : Nat) :
    l.length - 1 ≤ (eraseA l c).length := by
  induction l with
  | nil => simp [eraseA]
  | cons p rest ih =>
    obtain ⟨c1, n1⟩ := p
    by_cases h : c1 = c
    · simp [eraseA, h]
    · simp only [eraseA, h, if_false, List.length_cons]
      omega

theorem dupFreeKeys_insertA (l : List (Nat × α)) (c : Nat) (v : α)
    (h : dupFreeKeys l = true) : dupFreeKeys (insertA l c v) = true := by
  induction l with
  | nil => simp [insertA, dupFreeKeys, lookupA]
  | cons p rest ih =>
    obtain ⟨c1, n1⟩ := p
    simp only [dupFreeKeys, Bool.and_eq_true, Bool.not_eq_true'] at h
    by_cases h1 : c1 = c
    · subst h1
      simp [insertA, dupFreeKeys, h.1, h.2]
    · simp [insertA, h1, dupFreeKeys, ih h.2,
        lookupA_insertA_ne rest c c1 v (fun hc => h1 hc.symm), h.1]

theorem dupFreeKeys_eraseA (l : List (Nat × α)) (c : Nat)
    (h : dupFreeKeys l = true) : dupFreeKeys (eraseA l c) = true := by
  induction l with
  | nil => simp [eraseA, dupFreeKeys]
  | cons p rest ih =>
    obtain ⟨c1, n1⟩ := p
    simp only [dupFreeKeys, Bool.and_eq_true, Bool.not_eq_true'] at h
    by_cases h1 : c1 = c
    · subst h1; simpa [eraseA] using h.2
    · by_cases h2 : c1 = c
      · exact absurd h2 h1
      · simp only [eraseA, h1, if_false, dupFreeKeys, Bool.and_eq_true, Bool.not_eq_true']
        exact ⟨by rw [lookupA_eraseA_ne rest c c1 (fun hc => h1 hc.symm)]; exact h.1, ih h.2⟩

theorem lookupA_singleton_of_length_le_one (l : List (Nat × α)) (c : Nat) (x : α)
    (hlen : l.length ≤ 1) (hl : lookupA l c = some x) : l = [(c, x)] := by
  cases l with
  | nil => simp [lookupA] at hl
  | cons p rest =>
    obtain ⟨c1, n1⟩ := p
    cases rest with
    | nil =>
      simp only [lookupA] at hl
      by_cases h : c1 = c
      · subst h; simp at hl; simp [hl]
      · simp [h] at hl
    | cons q rest2 => simp at hlen

/-! Unfolding lemmas for `Trie.get` and `Trie.put`. -/

/-- The value stored at a nullable root. -/
def valueOf : Trie V → Option V
  | none => none
  | some n => n.value

@[simp] theorem get_none_trie (key : List Nat) : Trie.get (none : Trie V) key = none := rfl

@[simp] theorem get_nil (t : Trie V) : Trie.get t [] = valueOf t := by
  cases t <;> rfl

@[simp] theorem get_cons (n : TrieNode V) (c : Nat) (rest : List Nat) :
    Trie.get (some n) (c :: rest) = Trie.get (lookupA n.children c) rest := by
  show Trie.get (some n) (c :: rest) = _
  cases h : lookupA n.children c with
  | none => simp [Trie.get, getLoop, h]
  | some child =>
    cases h2 : getLoop child rest with
    | none => simp [Trie.get, getLoop, h, h2]
    | some m => simp [Trie.get, getLoop, h, h2]

/-- The node actually produced by `Trie.put` (which always returns a non-null
root). -/
def putN (v : V) (t : Trie V) (key : List Nat) : TrieNode V :=
  match Trie.put t key v with
  | some n => n
  | none => .mk [] none

theorem put_eq_putN (t : Trie V) (key : List Nat) (v : V) :
    Trie.put t key v = some (putN v t key) := by
  cases t <;> cases key <;> rfl

@[simp] theorem putN_nil (v : V) (t : Trie V) :
    putN v t [] = .mk (childrenOf t) (some v) := by
  cases t <;> rfl

theorem putN_cons (v : V) (t : Trie V) (c : Nat) (rest : List Nat) :
    putN v t (c :: rest) =
      .mk (insertA (childrenOf t) c (putN v (lookupA (childrenOf t) c) rest)) (valueOf t) := by
  cases t with
  | none =>
    cases rest with
    | nil => rfl
    | cons c1 rest1 => rfl
  | some root =>
    cases rest with
    | nil =>
      show putGo v root c [] = _
      cases h : lookupA root.children c <;>
        simp [putGo, putN, Trie.put, h, childrenOf, valueOf]
    | cons c1 rest1 =>
      show putGo v root c (c1 :: rest1) = _
      cases h : lookupA root.children c <;>
        simp [putGo, putN, Trie.put, h, childrenOf, valueOf]

/-! Claim C5: put/get laws. -/

theorem get_put_self (t : Trie V) (k : List Nat) (v : V) :
    Trie.get (Trie.put t k v) k = some v := by
  induction k generalizing t with
  | nil => simp [Trie.put, valueOf]
  | cons c rest ih =>
    rw [put_eq_putN, putN_cons, get_cons]
    simp only [TrieNode.children_mk]
    rw [lookupA_insertA_self, ← put_eq_putN]
    exact ih _

theorem get_put_ne (t : Trie V) (k k1 : List Nat) (v : V) (h : k1 ≠ k) :
    Trie.get (Trie.put t k v) k1 = Trie.get t k1 := by
  induction k generalizing t k1 with
  | nil =>
    cases k1 with
    | nil => exact absurd rfl h
    | cons c1 rest1 =>
      rw [show Trie.put t [] v = some (.mk (childrenOf t) (some v)) from rfl, get_cons]
      cases t with
      | none => simp [childrenOf]
      | some root => simp [childrenOf]
  | cons c rest ih =>
    rw [put_eq_putN, putN_cons]
    cases k1 with
    | nil =>
      rw [get_nil, get_nil]
      simp [valueOf]
    | cons c1 rest1 =>
      rw [get_cons]
      simp only [TrieNode.children_mk]
      by_cases hc : c = c1
      · subst hc
        rw [lookupA_insertA_self, ← put_eq_putN]
        have hrest : rest1 ≠ rest := by
          intro he; exact h (by rw [he])
        rw [ih _ _ hrest]
        cases t with
        | none => simp [childrenOf]
        | some root => simp [childrenOf]
      · rw [lookupA_insertA_ne _ _ _ _ hc]
        cases t with
        | none => simp [childrenOf]
        | some root => simp [childrenOf]

/-- C5: for every trie `r`, every key `k` (including the empty key) and every
value `v`, with `r1 = r.put(k, v)`: `r1.get(k)` returns `v`, and for every key
`k1` different from `k`, `r1.get(k1)` equals `r.get(k1)`.  (`r` itself is a
value of the pure embedding, so "r's lookups are all unchanged" holds by
construction: `Trie.put` does not mutate its argument.) -/
theorem claim_C5 (r : Trie V) (k : List Nat) (v : V) :
    Trie.get (Trie.put r k v) k = some v ∧
    ∀ k1, k1 ≠ k → Trie.get (Trie.put r k v) k1 = Trie.get r k1 :=
  ⟨get_put_self r k v, fun k1 h => get_put_ne r k k1 v h⟩

/-- Witness for C5 at a concrete trie, key and value. -/
theorem claim_C5_witness :
    Trie.get (Trie.put (some (.mk [(1, .mk [] (some 7))] none)) [1, 2] 9) [1, 2] = some 9 ∧
    Trie.get (Trie.put (some (.mk [(1, .mk [] (some 7))] none)) [1, 2] 9) [1] = some 7 := by
  refine ⟨(claim_C5 _ [1, 2] 9).1, ?_⟩
  rw [(claim_C5 (some (.mk [(1, .mk [] (some 7))] none)) [1, 2] 9).2 [1] (by decide)]
  rfl

/-! Well-formedness helper lemmas. -/

theorem nodeWF_eq (n : TrieNode V) :
    nodeWF n = (dupFreeKeys n.children && childrenWF n.children) := by
  cases n; rfl

theorem childrenWF_lookup (cs : List (Nat × TrieNode V)) (c : Nat) (n : TrieNode V)
    (h : childrenWF cs = true) (hl : lookupA cs c = some n) :
    nodeWF n = true ∧ (n.value.isSome || !n.children.isEmpty) = true := by
  induction cs with
  | nil => simp [lookupA] at hl
  | cons p rest ih =>
    obtain ⟨c1, n1⟩ := p
    simp only [childrenWF, Bool.and_eq_true] at h
    simp only [lookupA] at hl
    by_cases hc : c1 = c
    · simp only [hc, if_true] at hl
      cases hl
      exact ⟨h.1.1, h.1.2⟩
    · simp only [hc, if_false] at hl
      exact ih h.2 hl

theorem childrenWF_insertA (cs : List (Nat × TrieNode V)) (c : Nat) (x : TrieNode V)
    (h : childrenWF cs = true) (hx : nodeWF x = true)
    (hx2 : (x.value.isSome || !x.children.isEmpty) = true) :
    childrenWF (insertA cs c x) = true := by
  induction cs with
  | nil => simp [insertA, childrenWF, hx, hx2]
  | cons p rest ih =>
    obtain ⟨c1, n1⟩ := p
    simp only [childrenWF, Bool.and_eq_true] at h
    by_cases hc : c1 = c
    · simp [insertA, hc, childrenWF, hx, hx2, h.2]
    · simp [insertA, hc, childrenWF, h.1.1, h.1.2, ih h.2]

theorem childrenWF_eraseA (cs : List (Nat × TrieNode V)) (c : Nat)
    (h : childrenWF cs = true) : childrenWF (eraseA cs c) = true := by
  induction cs with
  | nil => simp [eraseA, childrenWF]
  | cons p rest ih =>
    obtain ⟨c1, n1⟩ := p
    simp only [childrenWF, Bool.and_eq_true] at h
    by_cases hc : c1 = c
    · simpa [eraseA, hc] using h.2
    · simp [eraseA, hc, childrenWF, h.1.1, h.1.2, ih h.2]

theorem elideAt_eq_none_iff (n : TrieNode V) (c : Nat) :
    elideAt n c = none ↔ (n.value.isNone ∧ n.children.length ≤ 1) := by
  by_cases h : n.value.isNone ∧ n.children.length ≤ 1 <;> simp [elideAt, h]

theorem elideAt_eq_some_iff (n : TrieNode V) (c : Nat) (n1 : TrieNode V) :
    elideAt n c = some n1 ↔
      (¬(n.value.isNone ∧ n.children.length ≤ 1) ∧
        n1 = .mk (eraseA n.children c) n.value) := by
  by_cases h : n.value.isNone ∧ n.children.length ≤ 1
  · simp [elideAt, h]
  · simp only [elideAt, h, if_false, Option.some_inj, not_false_iff, true_and]
    exact comm

/-- Main characterization of the `Trie::Remove` walk below a well-formed node:
`none` results exactly mean the key is absent; an elided node held no key other
than the removed one; a replacement node drops the removed key, preserves all
other lookups, and stays well formed. -/
theorem removeGo_main (rest : List Nat) (c : Nat) (n : TrieNode V)
    (hwf : nodeWF n = true) :
    (removeGo n c rest = none → Trie.get (some n) (c :: rest) = none) ∧
    (Trie.get (some n) (c :: rest) = none → removeGo n c rest = none) ∧
    (removeGo n c rest = some none →
        ∀ k1, k1 ≠ c :: rest → Trie.get (some n) k1 = none) ∧
    (∀ n1, removeGo n c rest = some (some n1) →
        Trie.get (some n1) (c :: rest) = none ∧
        (∀ k1, k1 ≠ c :: rest → Trie.get (some n1) k1 = Trie.get (some n) k1) ∧
        nodeWF n1 = true ∧ (n1.value.isSome || !n1.children.isEmpty) = true) := by
  induction rest generalizing c n with
  | nil =>
    have hdup : dupFreeKeys n.children = true := by
      rw [nodeWF_eq] at hwf; exact (Bool.and_eq_true_iff.mp hwf).1
    have hcwf : childrenWF n.children = true := by
      rw [nodeWF_eq] at hwf; exact (Bool.and_eq_true_iff.mp hwf).2
    cases hl : lookupA n.children c with
    | none =>
      have hrg : removeGo n c [] = none := by simp [removeGo, hl]
      refine ⟨fun _ => by simp [hl, valueOf], fun _ => hrg,
        fun h => absurd (hrg.symm.trans h) (by simp),
        fun n1 h => absurd (hrg.symm.trans h) (by simp)⟩
    | some target =>
      cases hv : target.value with
      | none =>
        have hrg : removeGo n c [] = none := by simp [removeGo, hl, hv]
        refine ⟨fun _ => by simp [hl, valueOf, hv], fun _ => hrg,
          fun h => absurd (hrg.symm.trans h) (by simp),
          fun n1 h => absurd (hrg.symm.trans h) (by simp)⟩
      | some w =>
        have hget : Trie.get (some n) [c] = some w := by simp [hl, valueOf, hv]
        by_cases he : target.children.isEmpty
        · have hrg : removeGo n c [] = some (elideAt n c) := by
            simp [removeGo, hl, hv, he]
          have hemp : target.children = [] := by
            cases hx : target.children with
            | nil => rfl
            | cons a b => rw [hx] at he; simp at he
          refine ⟨fun h => absurd (hrg.symm.trans h) (by simp),
            fun h => absurd (hget.symm.trans h) (by simp), fun h => ?_, fun n1 h => ?_⟩
          · -- node elided entirely: it held no key other than [c]
            have hel : elideAt n c = none := Option.some_inj.mp (hrg.symm.trans h)
            obtain ⟨hvn, hlen⟩ := (elideAt_eq_none_iff n c).mp hel
            have hsing : n.children = [(c, target)] :=
              lookupA_singleton_of_length_le_one _ _ _ hlen hl
            intro k1 hk1
            match k1 with
            | [] => simpa [valueOf] using Option.isNone_iff_eq_none.mp hvn
            | c1 :: k2 =>
              by_cases hc1 : c1 = c
              · subst hc1
                have hk2 : k2 ≠ [] := fun hx => hk1 (by rw [hx])
                match k2 with
                | [] => exact absurd rfl hk2
                | c2 :: k3 => simp [hsing, lookupA, hemp]
              · have hcc : ¬(c = c1) := fun h => hc1 h.symm
                simp [hsing, lookupA, hcc]
          · -- node kept, child entry erased
            have hel : elideAt n c = some n1 := Option.some_inj.mp (hrg.symm.trans h)
            obtain ⟨hne, hn1⟩ := (elideAt_eq_some_iff n c n1).mp hel
            subst hn1
            refine ⟨by simp [lookupA_eraseA_self _ _ hdup, valueOf], fun k1 hk1 => ?_, ?_, ?_⟩
            · match k1 with
              | [] => simp [valueOf]
              | c1 :: k2 =>
                by_cases hc1 : c1 = c
                · subst hc1
                  have hk2 : k2 ≠ [] := fun hx => hk1 (by rw [hx])
                  rw [get_cons, get_cons]
                  simp only [TrieNode.children_mk]
                  rw [lookupA_eraseA_self _ _ hdup, hl]
                  match k2 with
                  | [] => exact absurd rfl hk2
                  | c2 :: k3 => simp [hemp]
                · rw [get_cons, get_cons]
                  simp only [TrieNode.children_mk]
                  rw [lookupA_eraseA_ne _ _ _ (fun h => hc1 h.symm)]
            · rw [nodeWF_eq]
              simp only [TrieNode.children_mk, Bool.and_eq_true]
              exact ⟨dupFreeKeys_eraseA _ _ hdup, childrenWF_eraseA _ _ hcwf⟩
            · simp only [TrieNode.value_mk, TrieNode.children_mk]
              rcases not_and_or.mp hne with hx | hx
              · cases hv2 : n.value with
                | none => exact absurd (by simp [hv2]) hx
                | some u => simp [hv2]
              · have h2 : 2 ≤ n.children.length := by omega
                have h3 := length_eraseA_ge n.children c
                cases hy : eraseA n.children c with
                | nil => rw [hy] at h3; simp at h3; omega
                | cons a b => simp
        · -- target converted to a plain node carrying the same children
          have hrg : removeGo n c [] =
              some (some (.mk (insertA n.children c (.mk target.children none)) n.value)) := by
            simp [removeGo, hl, hv, he]
          refine ⟨fun h => absurd (hrg.symm.trans h) (by simp),
            fun h => absurd (hget.symm.trans h) (by simp),
            fun h => absurd (Option.some_inj.mp (hrg.symm.trans h)) (by simp),
            fun n1 h => ?_⟩
          have hn1 : TrieNode.mk (insertA n.children c (.mk target.children none)) n.value = n1 :=
            Option.some_inj.mp (Option.some_inj.mp (hrg.symm.trans h))
          subst hn1
          obtain ⟨htwf, _⟩ := childrenWF_lookup _ _ _ hcwf hl
          have hg1 : Trie.get (some (TrieNode.mk
              (insertA n.children c (TrieNode.mk target.children none)) n.value)) [c] = none := by
            rw [get_cons]
            simp only [TrieNode.children_mk]
            rw [lookupA_insertA_self]
            simp [valueOf]
          refine ⟨hg1, fun k1 hk1 => ?_, ?_, ?_⟩
          · match k1 with
            | [] => simp [valueOf]
            | c1 :: k2 =>
              by_cases hc1 : c1 = c
              · subst hc1
                have hk2 : k2 ≠ [] := fun hx => hk1 (by rw [hx])
                rw [get_cons, get_cons]
                simp only [TrieNode.children_mk]
                rw [lookupA_insertA_self, hl]
                match k2 with
                | [] => exact absurd rfl hk2
                | c2 :: k3 => simp
              · rw [get_cons, get_cons]
                simp only [TrieNode.children_mk]
                rw [lookupA_insertA_ne _ _ _ _ (fun h => hc1 h.symm)]
          · rw [nodeWF_eq]
            simp only [TrieNode.children_mk, Bool.and_eq_true]
            refine ⟨dupFreeKeys_insertA _ _ _ hdup, childrenWF_insertA _ _ _ hcwf ?_ ?_⟩
            · rw [nodeWF_eq] at htwf ⊢
              simpa using htwf
            · simp [he]
          · simp [insertA_ne_nil]
  | cons c1 rest1 ih =>
    have hdup : dupFreeKeys n.children = true := by
      rw [nodeWF_eq] at hwf; exact (Bool.and_eq_true_iff.mp hwf).1
    have hcwf : childrenWF n.children = true := by
      rw [nodeWF_eq] at hwf; exact (Bool.and_eq_true_iff.mp hwf).2
    cases hl : lookupA n.children c with
    | none =>
      have hrg : removeGo n c (c1 :: rest1) = none := by simp [removeGo, hl]
      refine ⟨fun _ => by simp [hl], fun _ => hrg,
        fun h => absurd (hrg.symm.trans h) (by simp),
        fun n1 h => absurd (hrg.symm.trans h) (by simp)⟩
    | some child =>
      obtain ⟨hchwf, _⟩ := childrenWF_lookup _ _ _ hcwf hl
      obtain ⟨ih1, ih2, ih3, ih4⟩ := ih c1 child hchwf
      have hgn : Trie.get (some n) (c :: c1 :: rest1) = Trie.get (some child) (c1 :: rest1) := by
        simp [hl]
      cases hr : removeGo child c1 rest1 with
      | none =>
        have hrg : removeGo n c (c1 :: rest1) = none := by simp [removeGo, hl, hr]
        refine ⟨fun _ => by rw [hgn]; exact ih1 hr, fun _ => hrg,
          fun h => absurd (hrg.symm.trans h) (by simp),
          fun n1 h => absurd (hrg.symm.trans h) (by simp)⟩
      | some res =>
        have hgsome : Trie.get (some n) (c :: c1 :: rest1) ≠ none := by
          rw [hgn]; intro hx; rw [ih2 hx] at hr; cases hr
        cases res with
        | none =>
          have hrg : removeGo n c (c1 :: rest1) = some (elideAt n c) := by
            simp [removeGo, hl, hr]
          refine ⟨fun h => absurd (hrg.symm.trans h) (by simp), fun h => absurd h hgsome,
            fun h => ?_, fun n1 h => ?_⟩
          · have hel : elideAt n c = none := Option.some_inj.mp (hrg.symm.trans h)
            obtain ⟨hvn, hlen⟩ := (elideAt_eq_none_iff n c).mp hel
            have hsing : n.children = [(c, child)] :=
              lookupA_singleton_of_length_le_one _ _ _ hlen hl
            intro k1 hk1
            match k1 with
            | [] => simpa [valueOf] using Option.isNone_iff_eq_none.mp hvn
            | c2 :: k2 =>
              by_cases hc2 : c2 = c
              · subst hc2
                have hk2 : k2 ≠ c1 :: rest1 := fun hx => hk1 (by rw [hx])
                rw [get_cons, hl]
                exact ih3 hr k2 hk2
              · have hcc : ¬(c = c2) := fun h => hc2 h.symm
                simp [hsing, lookupA, hcc]
          · have hel : elideAt n c = some n1 := Option.some_inj.mp (hrg.symm.trans h)
            obtain ⟨hne, hn1⟩ := (elideAt_eq_some_iff n c n1).mp hel
            subst hn1
            refine ⟨by simp [lookupA_eraseA_self _ _ hdup, valueOf], fun k1 hk1 => ?_, ?_, ?_⟩
            · match k1 with
              | [] => simp [valueOf]
              | c2 :: k2 =>
                by_cases hc2 : c2 = c
                · subst hc2
                  have hk2 : k2 ≠ c1 :: rest1 := fun hx => hk1 (by rw [hx])
                  rw [get_cons, get_cons]
                  simp only [TrieNode.children_mk]
                  rw [lookupA_eraseA_self _ _ hdup, hl]
                  rw [ih3 hr k2 hk2]
                  rfl
                · rw [get_cons, get_cons]
                  simp only [TrieNode.children_mk]
                  rw [lookupA_eraseA_ne _ _ _ (fun h => hc2 h.symm)]
            · rw [nodeWF_eq]
              simp only [TrieNode.children_mk, Bool.and_eq_true]
              exact ⟨dupFreeKeys_eraseA _ _ hdup, childrenWF_eraseA _ _ hcwf⟩
            · simp only [TrieNode.value_mk, TrieNode.children_mk]
              rcases not_and_or.mp hne with hx | hx
              · cases hv2 : n.value with
                | none => exact absurd (by simp [hv2]) hx
                | some u => simp [hv2]
              · have h2 : 2 ≤ n.children.length := by omega
                have h3 := length_eraseA_ge n.children c
                cases hy : eraseA n.children c with
                | nil => rw [hy] at h3; simp at h3; omega
                | cons a b => simp
        | some child1 =>
          have hrg : removeGo n c (c1 :: rest1) =
              some (some (.mk (insertA n.children c child1) n.value)) := by
            simp [removeGo, hl, hr]
          obtain ⟨hc1g, hc1o, hc1wf, hc1nt⟩ := ih4 child1 hr
          refine ⟨fun h => absurd (hrg.symm.trans h) (by simp), fun h => absurd h hgsome,
            fun h => absurd (Option.some_inj.mp (hrg.symm.trans h)) (by simp),
            fun n1 h => ?_⟩
          have hn1 : TrieNode.mk (insertA n.children c child1) n.value = n1 :=
            Option.some_inj.mp (Option.some_inj.mp (hrg.symm.trans h))
          subst hn1
          have hg1 : Trie.get
              (some (TrieNode.mk (insertA n.children c child1) n.value)) (c :: c1 :: rest1) = none := by
            rw [get_cons]
            simp only [TrieNode.children_mk]
            rw [lookupA_insertA_self]
            exact hc1g
          refine ⟨hg1, fun k1 hk1 => ?_, ?_, ?_⟩
          · match k1 with
            | [] => simp [valueOf]
            | c2 :: k2 =>
              by_cases hc2 : c2 = c
              · subst hc2
                have hk2 : k2 ≠ c1 :: rest1 := fun hx => hk1 (by rw [hx])
                rw [get_cons, get_cons]
                simp only [TrieNode.children_mk]
                rw [lookupA_insertA_self, hl]
                exact hc1o k2 hk2
              · rw [get_cons, get_cons]
                simp only [TrieNode.children_mk]
                rw [lookupA_insertA_ne _ _ _ _ (fun h => hc2 h.symm)]
          · rw [nodeWF_eq]
            simp only [TrieNode.children_mk, Bool.and_eq_true]
            exact ⟨dupFreeKeys_insertA _ _ _ hdup, childrenWF_insertA _ _ _ hcwf hc1wf hc1nt⟩
          · simp [insertA_ne_nil]

theorem trieWF_parts (root : TrieNode V) (hwf : trieWF (some root) = true) :
    nodeWF root = true ∧ (root.value.isSome || !root.children.isEmpty) = true := by
  simpa [trieWF] using hwf

/-- An absent key leaves the trie structurally unchanged
(`Remove` returns `Trie(root_)` on every miss path). -/
theorem remove_of_absent (t : Trie V) (k : List Nat) (hwf : trieWF t = true)
    (h : Trie.get t k = none) : Trie.remove t k = t := by
  cases t with
  | none => rfl
  | some root =>
    obtain ⟨hn, hnt⟩ := trieWF_parts root hwf
    cases k with
    | nil =>
      have hv : root.value = none := by simpa [valueOf] using h
      have hch : root.children.isEmpty = false := by
        rw [hv] at hnt; simpa using hnt
      show Trie.remove (some root) [] = some root
      simp only [Trie.remove, hch, Bool.false_eq_true, if_false]
      cases root with
      | mk cs v =>
        simp only [TrieNode.value_mk] at hv
        rw [hv]
        rfl
    | cons c rest =>
      have hrg := (removeGo_main rest c root hn).2.1 h
      simp [Trie.remove, hrg]

/-- After a remove, the removed key is absent. -/
theorem get_remove_self (t : Trie V) (k : List Nat) (hwf : trieWF t = true) :
    Trie.get (Trie.remove t k) k = none := by
  cases t with
  | none => rfl
  | some root =>
    obtain ⟨hn, _⟩ := trieWF_parts root hwf
    cases k with
    | nil =>
      by_cases he : root.children.isEmpty
      · simp [Trie.remove, he, valueOf]
      · simp [Trie.remove, he, valueOf]
    | cons c rest =>
      cases hr : removeGo root c rest with
      | none =>
        simp only [Trie.remove, hr]
        exact (removeGo_main rest c root hn).1 hr
      | some res =>
        cases res with
        | none => simp [Trie.remove, hr]
        | some n1 =>
          simp only [Trie.remove, hr]
          exact ((removeGo_main rest c root hn).2.2.2 n1 hr).1

/-- A remove leaves every other key's lookup unchanged. -/
theorem get_remove_ne (t : Trie V) (k k1 : List Nat) (hwf : trieWF t = true)
    (hne : k1 ≠ k) : Trie.get (Trie.remove t k) k1 = Trie.get t k1 := by
  cases t with
  | none => rfl
  | some root =>
    obtain ⟨hn, _⟩ := trieWF_parts root hwf
    cases k with
    | nil =>
      cases k1 with
      | nil => exact absurd rfl hne
      | cons c1 k2 =>
        by_cases he : root.children.isEmpty
        · have hch : root.children = [] := by
            cases hx : root.children with
            | nil => rfl
            | cons a b => rw [hx] at he; simp at he
          simp [Trie.remove, he, hch]
        · simp [Trie.remove, he]
    | cons c rest =>
      cases hr : removeGo root c rest with
      | none => simp [Trie.remove, hr]
      | some res =>
        cases res with
        | none =>
          simp only [Trie.remove, hr]
          rw [(removeGo_main rest c root hn).2.2.1 hr k1 hne]
          rfl
        | some n1 =>
          simp only [Trie.remove, hr]
          exact ((removeGo_main rest c root hn).2.2.2 n1 hr).2.1 k1 hne

/-- Remove preserves the representation invariant. -/
theorem trieWF_remove (t : Trie V) (k : List Nat) (hwf : trieWF t = true) :
    trieWF (Trie.remove t k) = true := by
  cases t with
  | none => rfl
  | some root =>
    obtain ⟨hn, _⟩ := trieWF_parts root hwf
    cases k with
    | nil =>
      by_cases he : root.children.isEmpty
      · simp [Trie.remove, he, trieWF]
      · simp only [Trie.remove, he, Bool.false_eq_true, if_false]
        simp only [trieWF, Bool.and_eq_true, TrieNode.value_mk, TrieNode.children_mk]
        refine ⟨?_, by simpa using he⟩
        rw [nodeWF_eq] at hn ⊢
        simpa using hn
    | cons c rest =>
      cases hr : removeGo root c rest with
      | none => simpa [Trie.remove, hr, trieWF] using hwf
      | some res =>
        cases res with
        | none => simp [Trie.remove, hr, trieWF]
        | some n1 =>
          obtain ⟨_, _, h1, h2⟩ := (removeGo_main rest c root hn).2.2.2 n1 hr
          simp [Trie.remove, hr, trieWF, h1, h2]

/-- The children produced by the put walk are never empty. -/
theorem putGo_children_ne_nil (v : V) (rest : List Nat) (c : Nat) (n : TrieNode V) :
    (putGo v n c rest).children ≠ [] := by
  cases rest <;> simp [putGo, insertA_ne_nil]

/-- The put walk preserves node well-formedness. -/
theorem putGo_WF (v : V) (rest : List Nat) (c : Nat) (n : TrieNode V)
    (hwf : nodeWF n = true) : nodeWF (putGo v n c rest) = true := by
  induction rest generalizing c n with
  | nil =>
    have hdup : dupFreeKeys n.children = true := by
      rw [nodeWF_eq] at hwf; exact (Bool.and_eq_true_iff.mp hwf).1
    have hcwf : childrenWF n.children = true := by
      rw [nodeWF_eq] at hwf; exact (Bool.and_eq_true_iff.mp hwf).2
    simp only [putGo, nodeWF_eq, TrieNode.children_mk, Bool.and_eq_true]
    refine ⟨dupFreeKeys_insertA _ _ _ hdup, childrenWF_insertA _ _ _ hcwf ?_ (by simp)⟩
    cases hl : lookupA n.children c with
    | none => simp [childrenOf, nodeWF_eq, dupFreeKeys, childrenWF]
    | some ch =>
      obtain ⟨hchwf, _⟩ := childrenWF_lookup _ _ _ hcwf hl
      simp only [childrenOf, nodeWF_eq, TrieNode.children_mk]
      rw [nodeWF_eq] at hchwf
      exact hchwf
  | cons c1 rest1 ih =>
    have hdup : dupFreeKeys n.children = true := by
      rw [nodeWF_eq] at hwf; exact (Bool.and_eq_true_iff.mp hwf).1
    have hcwf : childrenWF n.children = true := by
      rw [nodeWF_eq] at hwf; exact (Bool.and_eq_true_iff.mp hwf).2
    have hchild : ∀ ch, lookupA n.children c = some ch → nodeWF ch = true :=
      fun ch hl => (childrenWF_lookup _ _ _ hcwf hl).1
    simp only [putGo, nodeWF_eq, TrieNode.children_mk, Bool.and_eq_true]
    cases hl : lookupA n.children c with
    | none =>
      refine ⟨dupFreeKeys_insertA _ _ _ hdup, childrenWF_insertA _ _ _ hcwf ?_ ?_⟩
      · exact ih _ _ (by simp [nodeWF_eq, dupFreeKeys, childrenWF])
      · have := putGo_children_ne_nil v rest1 c1 (.mk [] none)
        simp only [Bool.or_eq_true, Bool.not_eq_true']
        right
        cases hx : (putGo v (TrieNode.mk [] none) c1 rest1).children with
        | nil => exact absurd hx this
        | cons a b => rfl
    | some ch =>
      refine ⟨dupFreeKeys_insertA _ _ _ hdup, childrenWF_insertA _ _ _ hcwf ?_ ?_⟩
      · exact ih _ _ (hchild ch hl)
      · have := putGo_children_ne_nil v rest1 c1 ch
        simp only [Bool.or_eq_true, Bool.not_eq_true']
        right
        cases hx : (putGo v ch c1 rest1).children with
        | nil => exact absurd hx this
        | cons a b => rfl

/-- Put preserves the representation invariant. -/
theorem trieWF_put (t : Trie V) (k : List Nat) (v : V) (hwf : trieWF t = true) :
    trieWF (Trie.put t k v) = true := by
  have hcs : dupFreeKeys (childrenOf t) = true ∧ childrenWF (childrenOf t) = true := by
    cases t with
    | none => exact ⟨rfl, rfl⟩
    | some root =>
      obtain ⟨hn, _⟩ := trieWF_parts root hwf
      rw [nodeWF_eq] at hn
      exact ⟨(Bool.and_eq_true_iff.mp hn).1, (Bool.and_eq_true_iff.mp hn).2⟩
  cases k with
  | nil =>
    simp only [Trie.put, trieWF, Bool.and_eq_true, nodeWF_eq, TrieNode.children_mk,
      TrieNode.value_mk]
    exact ⟨⟨hcs.1, hcs.2⟩, by simp⟩
  | cons c rest =>
    cases t with
    | none =>
      simp only [Trie.put, trieWF, Bool.and_eq_true]
      constructor
      · exact putGo_WF v rest c _ (by simp [nodeWF_eq, dupFreeKeys, childrenWF])
      · have := putGo_children_ne_nil v rest c (.mk [] none)
        simp only [Bool.or_eq_true, Bool.not_eq_true']
        right
        cases hx : (putGo v (TrieNode.mk [] none) c rest).children with
        | nil => exact absurd hx this
        | cons a b => rfl
    | some root =>
      obtain ⟨hn, _⟩ := trieWF_parts root hwf
      simp only [Trie.put, trieWF, Bool.and_eq_true]
      constructor
      · exact putGo_WF v rest c root hn
      · have := putGo_children_ne_nil v rest c root
        simp only [Bool.or_eq_true, Bool.not_eq_true']
        right
        cases hx : (putGo v root c rest).children with
        | nil => exact absurd hx this
        | cons a b => rfl

/-- C6: for every well-formed trie `t` (children keys distinct as in
`std::map`; no childless valueless node, as the API maintains) and every key
`k`: an absent `k` makes `remove` return the original trie unchanged; `remove`
is idempotent (structurally, hence with the same lookups); and
`t.put(k,v).remove(k)` has the same lookups as `t` with key `k` absent. -/
theorem claim_C6 (t : Trie V) (k : List Nat) (v : V) (hwf : trieWF t = true) :
    (Trie.get t k = none → Trie.remove t k = t) ∧
    Trie.remove (Trie.remove t k) k = Trie.remove t k ∧
    ∀ k1, Trie.get (Trie.remove (Trie.put t k v) k) k1 =
      if k1 = k then none else Trie.get t k1 := by
  refine ⟨fun h => remove_of_absent t k hwf h, ?_, fun k1 => ?_⟩
  · exact remove_of_absent (Trie.remove t k) k (trieWF_remove t k hwf)
      (get_remove_self t k hwf)
  · by_cases hk : k1 = k
    · subst hk
      simp only [if_true]
      exact get_remove_self (Trie.put t k1 v) k1 (trieWF_put t k1 v hwf)
    · rw [if_neg hk]
      rw [get_remove_ne (Trie.put t k v) k k1 (trieWF_put t k v hwf) hk]
      exact get_put_ne t k k1 v hk

/-- Witness for C6 at a concrete trie and key. -/
theorem claim_C6_witness :
    Trie.remove (Trie.put (some (.mk [(1, .mk [] (some 7))] none)) [1, 2] 9) [1, 2] =
      some (.mk [(1, .mk [] (some 7))] none) ∧
    Trie.get (Trie.remove (Trie.put (some (.mk [(1, .mk [] (some 7))] none)) [1, 2] 9) [1, 2]) [1] =
      some 7 := by
  have h := claim_C6 (some (.mk [(1, .mk [] (some 7))] none)) [1, 2] 9 (by rfl)
  refine ⟨?_, ?_⟩
  · rfl
  · rw [h.2.2 [1]]
    rfl

end BusTrie

namespace BusLRU

open BusTrie (lookupA insertA)

/-- `LRUKNode` (from `lru_k_replacer.h`): bounded access history, most recent
timestamp first (`push_front`), and the evictable flag. -/
structure LRUKNode where
  history : List Nat
  isEvictable : Bool
  deriving DecidableEq

/-- `LRUKReplacer`: node store (a `std::map<frame_id_t, LRUKNode>`, iterated
in ascending frame-id order), the global timestamp counter, the count of
evictable frames, the capacity, and `k`. -/
structure LRUKReplacer where
  nodeStore : List (Nat × LRUKNode)
  currentTimestamp : Nat
  currSize : Nat
  replacerSize : Nat
  k : Nat
  deriving DecidableEq

/-- The accumulator of the `Evict` selection loop: `fid`/`ts` for the best
full-history frame so far, `infFid`/`infTs` for the best +∞ frame so far.
`none` plays the role of the `-1` sentinel. -/
structure ScanSt where
  fid : Option Nat
  ts : Nat
  infFid : Option Nat
  infTs : Nat
  deriving DecidableEq

/-- The selection loop of `LRUKReplacer::Evict` (`lru_k_replacer.cpp` lines
20–48): skip non-evictable frames; frames with fewer than `k` recorded
accesses take the +∞ route, an empty history breaking the loop immediately;
otherwise, while no +∞ frame has been seen, keep the frame whose
`history_.front()` (the MOST RECENT access timestamp) is smallest. -/
def evictScan (k : Nat) : List (Nat × LRUKNode) → ScanSt → ScanSt
  | [], st => st
  | (f, n) :: rest, st =>
    if n.isEvictable = false then evictScan k rest st
    else if n.history.length < k then
      if n.history.isEmpty then { st with infFid := some f }
      else if n.history.headD 0 < st.infTs then
        evictScan k rest { st with infFid := some f, infTs := n.history.headD 0 }
      else evictScan k rest st
    else if st.infFid.isSome then evictScan k rest st
    else if n.history.headD 0 < st.ts then
      evictScan k rest { st with fid := some f, ts := n.history.headD 0 }
    else evictScan k rest st

/-- `LRUKReplacer::Remove` (`lru_k_replacer.cpp` lines 94–105): clear the
history, mark non-evictable, and decrement `curr_size_`.  (The C++ throws on a
non-evictable frame; `Evict` only removes frames it found evictable, so that
path is modelled as the identity.) -/
def LRUKReplacer.remove (r : LRUKReplacer) (fid : Nat) : LRUKReplacer :=
  match lookupA r.nodeStore fid with
  | none => r
  | some n =>
    if n.isEvictable = false then r
    else
      { r with
        nodeStore := insertA r.nodeStore fid { history := [], isEvictable := false },
        currSize := r.currSize - 1 }

/-- `LRUKReplacer::Evict` (`lru_k_replacer.cpp` lines 20–60): run the scan
with both candidates initialized to timestamp `current_timestamp_ + 1`; a +∞
candidate wins over a full-history candidate. -/
def LRUKReplacer.evict (r : LRUKReplacer) : Option Nat × LRUKReplacer :=
  let st := evictScan r.k r.nodeStore
    { fid := none, ts := r.currentTimestamp + 1, infFid := none, infTs := r.currentTimestamp + 1 }
  match st.infFid with
  | some f => (some f, r.remove f)
  | none =>
    match st.fid with
    | some f => (some f, r.remove f)
    | none => (none, r)

/-- `LRUKReplacer::RecordAccess` (`lru_k_replacer.cpp` lines 62–75): prepend
`++current_timestamp_` to the frame's history and drop the oldest entry when
the length exceeds `k`.  (The C++ throws on an out-of-range frame id; the
buffer pool only passes ids below `replacer_size_`, so that path is modelled
as the identity.) -/
def LRUKReplacer.recordAccess (r : LRUKReplacer) (fid : Nat) : LRUKReplacer :=
  if r.replacerSize ≤ fid then r
  else
    let node := (lookupA r.nodeStore fid).getD { history := [], isEvictable := false }
    let node1 : LRUKNode := { node with history := (r.currentTimestamp + 1) :: node.history }
    let node2 : LRUKNode :=
      if r.k < node1.history.length then { node1 with history := node1.history.dropLast }
      else node1
    { r with
      nodeStore := insertA r.nodeStore fid node2,
      currentTimestamp := r.currentTimestamp + 1 }

/-- `LRUKReplacer::SetEvictable` (`lru_k_replacer.cpp` lines 77–92): toggle
the flag and maintain `curr_size_`.  (Out-of-range ids throw in C++; modelled
as the identity, as for `recordAccess`.) -/
def LRUKReplacer.setEvictable (r : LRUKReplacer) (fid : Nat) (se : Bool) : LRUKReplacer :=
  if r.replacerSize ≤ fid then r
  else
    match lookupA r.nodeStore fid with
    | none => r
    | some node =>
      if node.isEvictable = false ∧ se = true then
        { r with
          nodeStore := insertA r.nodeStore fid { node with isEvictable := se },
          currSize := r.currSize + 1 }
      else if node.isEvictable = true ∧ se = false then
        { r with
          nodeStore := insertA r.nodeStore fid { node with isEvictable := se },
          currSize := r.currSize - 1 }
      else r

/-- `LRUKReplacer::Size`. -/
def LRUKReplacer.size (r : LRUKReplacer) : Nat := r.currSize

/-- A +∞ entry: evictable with fewer than `k` recorded accesses. -/
def infEntry (k : Nat) (p : Nat × LRUKNode) : Prop :=
  p.2.isEvictable = true ∧ p.2.history.length < k

instance (k : Nat) (p : Nat × LRUKNode) : Decidable (infEntry k p) := by
  unfold infEntry; infer_instance

/-- An entry on which the scan breaks: evictable with an empty history. -/
def emptyEv (p : Nat × LRUKNode) : Bool :=
  p.2.isEvictable && p.2.history.isEmpty

/-- Frame id of the first evictable empty-history entry in map order. -/
def firstEmptyEv (l : List (Nat × LRUKNode)) : Option Nat :=
  (l.find? emptyEv).map (·.1)

/-- All timestamps recorded for the node are at most the current counter. -/
def nodeTsOK (cur : Nat) (n : LRUKNode) : Bool := n.history.all (· ≤ cur)

/-- State invariant of the replacer used by the eviction theorem: `k ≥ 1`
(the configured history depth) and all recorded timestamps at most
`current_timestamp_`, which `RecordAccess` maintains. -/
def replacerWF (r : LRUKReplacer) : Bool :=
  decide (1 ≤ r.k) && r.nodeStore.all (fun p => nodeTsOK r.currentTimestamp p.2)

theorem nodeTsOK_headD (cur : Nat) (n : LRUKNode) (h : nodeTsOK cur n = true)
    (hne : n.history ≠ []) : n.history.headD 0 ≤ cur := by
  cases hx : n.history with
  | nil => exact absurd hx hne
  | cons a rest =>
    simp only [nodeTsOK, hx, List.all_cons, Bool.and_eq_true, decide_eq_true_eq] at h
    simpa using h.1

/-- The scan stops at the first evictable empty-history entry and returns its
frame id as the +∞ candidate (the `break` at `lru_k_replacer.cpp` line 32). -/
theorem evictScan_break (k : Nat) (hk : 1 ≤ k) :
    ∀ (l : List (Nat × LRUKNode)) (st : ScanSt) (p0 : Nat × LRUKNode),
      l.find? emptyEv = some p0 → (evictScan k l st).infFid = some p0.1 := by
  intro l
  induction l with
  | nil => intro st p0 h; simp at h
  | cons p rest ih =>
    intro st p0 h
    obtain ⟨f, n⟩ := p
    by_cases hev : emptyEv (f, n) = true
    · rw [List.find?_cons_of_pos _ hev] at h
      cases h
      have h1 : n.isEvictable = true ∧ n.history.isEmpty = true := by
        simpa [emptyEv] using hev
      have hnil : n.history = [] := by simpa using h1.2
      have hlen : n.history.length < k := by rw [hnil]; simpa using hk
      simp [evictScan, h1.1, h1.2, hlen]
    · rw [List.find?_cons_of_neg _ hev] at h
      simp only [evictScan]
      by_cases he : n.isEvictable = false
      · simp only [he, if_true]; exact ih st p0 h
      · simp only [he, if_false]
        by_cases hl : n.history.length < k
        · have hne : n.history.isEmpty = false := by
            have he2 : n.isEvictable = true := by
              cases hx : n.isEvictable
              · exact absurd hx he
              · rfl
            cases hx : n.history.isEmpty
            · rfl
            · exact absurd (by simp [emptyEv, he2, hx]) hev
          simp only [hl, if_true, hne, Bool.false_eq_true, if_false]
          by_cases hcmp : n.history.headD 0 < st.infTs
          · simp only [hcmp, if_true]; exact ih _ p0 h
          · simp only [hcmp, if_false]; exact ih st p0 h
        · simp only [hl, if_false]
          by_cases hs : st.infFid.isSome
          · simp only [hs, if_true]; exact ih st p0 h
          · simp only [hs, Bool.false_eq_true, if_false]
            by_cases hcmp : n.history.headD 0 < st.ts
            · simp only [hcmp, if_true]; exact ih _ p0 h
            · simp only [hcmp, if_false]; exact ih st p0 h

/-- Behaviour of the scan's +∞ accumulator when no entry triggers the break:
the final +∞ candidate is the entry with the smallest most-recent-access
timestamp among +∞ entries (ties keeping the earlier entry). -/
theorem evictScan_noEmpty (k cur : Nat) :
    ∀ (l : List (Nat × LRUKNode)) (st : ScanSt),
      (∀ p ∈ l, emptyEv p = false) →
      (∀ p ∈ l, nodeTsOK cur p.2 = true) →
      (st.infFid = none → cur < st.infTs) →
      (evictScan k l st).infTs ≤ st.infTs ∧
      (st.infFid.isSome = true → (evictScan k l st).infFid.isSome = true) ∧
      ((evictScan k l st).infFid = st.infFid ∧ (evictScan k l st).infTs = st.infTs ∨
        ∃ p ∈ l, infEntry k p ∧ (evictScan k l st).infFid = some p.1 ∧
          (evictScan k l st).infTs = p.2.history.headD 0) ∧
      (∀ p ∈ l, infEntry k p → (evictScan k l st).infTs ≤ p.2.history.headD 0) ∧
      ((evictScan k l st).infFid = none ↔ st.infFid = none ∧ ∀ p ∈ l, ¬ infEntry k p) := by
  intro l
  induction l with
  | nil =>
    intro st hne hts hinit
    simp [evictScan]
  | cons p rest ih =>
    intro st hne hts hinit
    obtain ⟨f, n⟩ := p
    have hneR : ∀ p ∈ rest, emptyEv p = false := fun p hp => hne p (List.mem_cons_of_mem _ hp)
    have htsR : ∀ p ∈ rest, nodeTsOK cur p.2 = true := fun p hp => hts p (List.mem_cons_of_mem _ hp)
    simp only [evictScan]
    by_cases he : n.isEvictable = false
    · -- non-evictable entries are skipped and are never +∞ entries
      have hni : ¬ infEntry k (f, n) := fun hx => by rw [hx.1] at he; cases he
      obtain ⟨i1, i2, i3, i4, i5⟩ := ih st hneR htsR hinit
      simp only [he, if_true]
      refine ⟨i1, i2, ?_, ?_, ?_⟩
      · rcases i3 with h | ⟨q, hq, hq2⟩
        · exact Or.inl h
        · exact Or.inr ⟨q, List.mem_cons_of_mem _ hq, hq2⟩
      · intro q hq hqi
        rcases List.mem_cons.mp hq with rfl | hq2
        · exact absurd hqi hni
        · exact i4 q hq2 hqi
      · rw [i5]
        constructor
        · rintro ⟨h1, h2⟩
          exact ⟨h1, fun q hq => by
            rcases List.mem_cons.mp hq with rfl | hq2
            · exact hni
            · exact h2 q hq2⟩
        · rintro ⟨h1, h2⟩
          exact ⟨h1, fun q hq => h2 q (List.mem_cons_of_mem _ hq)⟩
    · have he2 : n.isEvictable = true := by
        cases hx : n.isEvictable
        · exact absurd hx he
        · rfl
      simp only [he, if_false]
      by_cases hl : n.history.length < k
      · -- +∞ entry with a nonempty history
        have hnonnil : n.history ≠ [] := by
          intro hx
          have hfalse := hne (f, n) (List.mem_cons_self _ _)
          simp [emptyEv, he2, hx] at hfalse
        have hnemp : n.history.isEmpty = false := by
          cases hx : n.history with
          | nil => exact absurd hx hnonnil
          | cons a b => rfl
        have hhead : n.history.headD 0 ≤ cur :=
          nodeTsOK_headD cur n (hts (f, n) (List.mem_cons_self _ _)) hnonnil
        have hinf : infEntry k (f, n) := ⟨he2, hl⟩
        simp only [hl, if_true, hnemp, Bool.false_eq_true, if_false]
        by_cases hcmp : n.history.headD 0 < st.infTs
        · -- the entry becomes the new +∞ candidate
          simp only [hcmp, if_true]
          set st1 : ScanSt := { st with infFid := some f, infTs := n.history.headD 0 } with hst1
          obtain ⟨i1, i2, i3, i4, i5⟩ := ih st1 hneR htsR (by intro hx; simp [hst1] at hx)
          refine ⟨le_trans i1 (le_of_lt hcmp), fun _ => i2 rfl, ?_, ?_, ?_⟩
          · rcases i3 with ⟨h1, h2⟩ | ⟨q, hq, hq2⟩
            · exact Or.inr ⟨(f, n), List.mem_cons_self _ _, hinf, h1, h2⟩
            · exact Or.inr ⟨q, List.mem_cons_of_mem _ hq, hq2⟩
          · intro q hq hqi
            rcases List.mem_cons.mp hq with rfl | hq2
            · exact i1
            · exact i4 q hq2 hqi
          · constructor
            · intro hx
              have hx2 := i5.mp hx
              simp [hst1] at hx2
            · rintro ⟨h1, h2⟩
              exact absurd hinf (h2 (f, n) (List.mem_cons_self _ _))
        · -- candidate unchanged (the entry's head is not smaller)
          have hkeep : st.infFid.isSome = true := by
            cases hx : st.infFid with
            | none => exact absurd (lt_of_le_of_lt hhead (hinit hx)) hcmp
            | some g => rfl
          simp only [hcmp, if_false]
          obtain ⟨i1, i2, i3, i4, i5⟩ := ih st hneR htsR hinit
          refine ⟨i1, i2, ?_, ?_, ?_⟩
          · rcases i3 with h | ⟨q, hq, hq2⟩
            · exact Or.inl h
            · exact Or.inr ⟨q, List.mem_cons_of_mem _ hq, hq2⟩
          · intro q hq hqi
            rcases List.mem_cons.mp hq with rfl | hq2
            · exact le_trans i1 (le_of_not_lt hcmp)
            · exact i4 q hq2 hqi
          · constructor
            · intro hx
              have hx2 := i5.mp hx
              rw [hx2.1] at hkeep
              cases hkeep
            · rintro ⟨h1, h2⟩
              exact absurd hinf (h2 (f, n) (List.mem_cons_self _ _))
      · -- full-history entry: the +∞ accumulator is untouched either way
        have hni : ¬ infEntry k (f, n) := fun hx => hl hx.2
        have htail : ∀ st2 : ScanSt, st2.fid = st.fid ∨ True →
            st2.infFid = st.infFid → st2.infTs = st.infTs →
            (evictScan k rest st2).infTs ≤ st.infTs ∧
            (st.infFid.isSome = true → (evictScan k rest st2).infFid.isSome = true) ∧
            ((evictScan k rest st2).infFid = st.infFid ∧ (evictScan k rest st2).infTs = st.infTs ∨
              ∃ q ∈ (f, n) :: rest, infEntry k q ∧ (evictScan k rest st2).infFid = some q.1 ∧
                (evictScan k rest st2).infTs = q.2.history.headD 0) ∧
            (∀ q ∈ (f, n) :: rest, infEntry k q →
              (evictScan k rest st2).infTs ≤ q.2.history.headD 0) ∧
            ((evictScan k rest st2).infFid = none ↔
              st.infFid = none ∧ ∀ q ∈ (f, n) :: rest, ¬ infEntry k q) := by
          intro st2 _ hf2 ht2
          obtain ⟨i1, i2, i3, i4, i5⟩ := ih st2 hneR htsR (by rw [hf2, ht2]; exact hinit)
          rw [ht2] at i1
          rw [hf2] at i2
          rw [hf2, ht2] at i3
          rw [hf2] at i5
          refine ⟨i1, i2, ?_, ?_, ?_⟩
          · rcases i3 with h | ⟨q, hq, hq2⟩
            · exact Or.inl h
            · exact Or.inr ⟨q, List.mem_cons_of_mem _ hq, hq2⟩
          · intro q hq hqi
            rcases List.mem_cons.mp hq with rfl | hq2
            · exact absurd hqi hni
            · exact i4 q hq2 hqi
          · rw [i5]
            constructor
            · rintro ⟨h1, h2⟩
              exact ⟨h1, fun q hq => by
                rcases List.mem_cons.mp hq with rfl | hq2
                · exact hni
                · exact h2 q hq2⟩
            · rintro ⟨h1, h2⟩
              exact ⟨h1, fun q hq => h2 q (List.mem_cons_of_mem _ hq)⟩
        simp only [hl, if_false]
        by_cases hs : st.infFid.isSome = true
        · rw [if_pos hs]
          exact htail st (Or.inl rfl) rfl rfl
        · rw [if_neg hs]
          by_cases hcmp : n.history.headD 0 < st.ts
          · rw [if_pos hcmp]
            exact htail _ (Or.inr trivial) rfl rfl
          · rw [if_neg hcmp]
            exact htail st (Or.inl rfl) rfl rfl

/-- Behaviour of the scan when no +∞ entry exists at all: the +∞ candidate
stays empty and the final candidate is the evictable entry with the smallest
most-recent-access timestamp (ties keeping the earlier entry). -/
theorem evictScan_noInf (k cur : Nat) (hk : 1 ≤ k) :
    ∀ (l : List (Nat × LRUKNode)) (st : ScanSt),
      (∀ p ∈ l, ¬ infEntry k p) →
      (∀ p ∈ l, nodeTsOK cur p.2 = true) →
      st.infFid = none →
      (st.fid = none → cur < st.ts) →
      (evictScan k l st).infFid = none ∧
      (evictScan k l st).ts ≤ st.ts ∧
      ((evictScan k l st).fid = st.fid ∧ (evictScan k l st).ts = st.ts ∨
        ∃ p ∈ l, p.2.isEvictable = true ∧ (evictScan k l st).fid = some p.1 ∧
          (evictScan k l st).ts = p.2.history.headD 0) ∧
      (∀ p ∈ l, p.2.isEvictable = true → (evictScan k l st).ts ≤ p.2.history.headD 0) ∧
      ((evictScan k l st).fid = none ↔ st.fid = none ∧ ∀ p ∈ l, p.2.isEvictable = false) := by
  intro l
  induction l with
  | nil =>
    intro st hni hts hinf hinit
    simp [evictScan, hinf]
  | cons p rest ih =>
    intro st hni hts hinf hinit
    obtain ⟨f, n⟩ := p
    have hniR : ∀ p ∈ rest, ¬ infEntry k p := fun p hp => hni p (List.mem_cons_of_mem _ hp)
    have htsR : ∀ p ∈ rest, nodeTsOK cur p.2 = true := fun p hp => hts p (List.mem_cons_of_mem _ hp)
    simp only [evictScan]
    by_cases he : n.isEvictable = false
    · simp only [he, if_true]
      obtain ⟨i1, i2, i3, i4, i5⟩ := ih st hniR htsR hinf hinit
      refine ⟨i1, i2, ?_, ?_, ?_⟩
      · rcases i3 with h | ⟨q, hq, hq2⟩
        · exact Or.inl h
        · exact Or.inr ⟨q, List.mem_cons_of_mem _ hq, hq2⟩
      · intro q hq hqe
        rcases List.mem_cons.mp hq with rfl | hq2
        · rw [hqe] at he; cases he
        · exact i4 q hq2 hqe
      · rw [i5]
        constructor
        · rintro ⟨h1, h2⟩
          exact ⟨h1, fun q hq => by
            rcases List.mem_cons.mp hq with rfl | hq2
            · exact he
            · exact h2 q hq2⟩
        · rintro ⟨h1, h2⟩
          exact ⟨h1, fun q hq => h2 q (List.mem_cons_of_mem _ hq)⟩
    · have he2 : n.isEvictable = true := by
        cases hx : n.isEvictable
        · exact absurd hx he
        · rfl
      have hlk : ¬ n.history.length < k :=
        fun hx => hni (f, n) (List.mem_cons_self _ _) ⟨he2, hx⟩
      have hnonnil : n.history ≠ [] := by
        intro hx
        exact hlk (by rw [hx]; simpa using hk)
      have hhead : n.history.headD 0 ≤ cur :=
        nodeTsOK_headD cur n (hts (f, n) (List.mem_cons_self _ _)) hnonnil
      rw [if_neg he, if_neg hlk, hinf]
      simp only [Option.isSome_none, Bool.false_eq_true, if_false]
      by_cases hcmp : n.history.headD 0 < st.ts
      · rw [if_pos hcmp]
        set st1 : ScanSt :=
          { fid := some f, ts := n.history.headD 0, infFid := none, infTs := st.infTs } with hst1
        obtain ⟨i1, i2, i3, i4, i5⟩ := ih st1 hniR htsR (by simp [hst1])
          (by intro hx; simp [hst1] at hx)
        refine ⟨i1, le_trans i2 (le_of_lt hcmp), ?_, ?_, ?_⟩
        · rcases i3 with ⟨h1, h2⟩ | ⟨q, hq, hq2⟩
          · exact Or.inr ⟨(f, n), List.mem_cons_self _ _, he2, h1, h2⟩
          · exact Or.inr ⟨q, List.mem_cons_of_mem _ hq, hq2⟩
        · intro q hq hqe
          rcases List.mem_cons.mp hq with rfl | hq2
          · exact i2
          · exact i4 q hq2 hqe
        · constructor
          · intro hx
            have hx2 := i5.mp hx
            simp [hst1] at hx2
          · rintro ⟨h1, h2⟩
            rw [h2 (f, n) (List.mem_cons_self _ _)] at he2
            cases he2
      · rw [if_neg hcmp]
        have hkeep : st.fid.isSome = true := by
          cases hx : st.fid with
          | none => exact absurd (lt_of_le_of_lt hhead (hinit hx)) hcmp
          | some g => rfl
        obtain ⟨i1, i2, i3, i4, i5⟩ := ih st hniR htsR hinf hinit
        refine ⟨i1, i2, ?_, ?_, ?_⟩
        · rcases i3 with h | ⟨q, hq, hq2⟩
          · exact Or.inl h
          · exact Or.inr ⟨q, List.mem_cons_of_mem _ hq, hq2⟩
        · intro q hq hqe
          rcases List.mem_cons.mp hq with rfl | hq2
          · exact le_trans i2 (le_of_not_lt hcmp)
          · exact i4 q hq2 hqe
        · constructor
          · intro hx
            have hx2 := i5.mp hx
            rw [hx2.1] at hkeep
            cases hkeep
          · rintro ⟨h1, h2⟩
            rw [h2 (f, n) (List.mem_cons_self _ _)] at he2
            cases he2

/-- `LRUKReplacer`'s constructor (`lru_k_replacer.cpp` line 18). -/
def lruInit (numFrames k : Nat) : LRUKReplacer :=
  { nodeStore := [], currentTimestamp := 0, currSize := 0, replacerSize := numFrames, k := k }

/-- Claim-side comparison, following the claim's words: node `a`'s K-distance
(`current_time − timestamp_of_kth_most_recent_access`, +∞ when fewer than `k`
accesses are recorded) is at least node `b`'s.  The k-th most recent access
timestamp of a full history (most recent first) is its entry at index `k−1`. -/
def kdistGE (k : Nat) (a b : LRUKNode) : Bool :=
  if a.history.length < k then true
  else if b.history.length < k then false
  else a.history.getD (k - 1) 0 ≤ b.history.getD (k - 1) 0

/-- The maximality part of claim C1, which the claim as stated implies:
`Evict` returns nothing exactly when no evictable frame exists, and otherwise
returns an evictable frame whose K-distance is at least that of every
evictable frame. -/
def evictClaimOK (r : LRUKReplacer) : Bool :=
  match (r.evict).1 with
  | none => r.nodeStore.all (fun p => !p.2.isEvictable)
  | some f => r.nodeStore.any (fun p =>
      p.1 == f && p.2.isEvictable &&
        r.nodeStore.all (fun q => !q.2.isEvictable || kdistGE r.k p.2 q.2))

/-- A state reached through the public API with `k = 2`: frame 0 accessed at
timestamps 1 and 4, frame 1 accessed at timestamps 2 and 3, both evictable. -/
def c1state : LRUKReplacer :=
  ((((((lruInit 2 2).recordAccess 0).recordAccess 1).recordAccess 1).recordAccess
    0).setEvictable 0 true).setEvictable 1 true

/-- Counterexample to C1: at `c1state`, frame 0's K-distance (k-th most recent
access at timestamp 1) strictly exceeds frame 1's (timestamp 2), so the claim
demands that frame 0 be evicted; the code compares `history_.front()` (the
most recent access) instead and evicts frame 1. -/
theorem claim_C1_counterexample :
    (c1state.evict).1 = some 1 ∧ replacerWF c1state = true ∧ evictClaimOK c1state = false := by
  decide

/-- C1 (amended): for every replacer state with `k ≥ 1` and timestamps bounded
by the counter: `Evict` returns nothing exactly when no evictable frame
exists; frames with fewer than `k` accesses (+∞ K-distance) are preferred; but
within each class the code compares `history_.front()`, the most recent access
timestamp, not the k-th most recent: among +∞ frames it returns the one with
the smallest most-recent-access timestamp, except that the first evictable
frame with an empty history (in map order) is returned immediately; with no +∞
frame it returns the evictable frame with the smallest most-recent-access
timestamp. -/
theorem claim_C1_amended (r : LRUKReplacer) (hwf : replacerWF r = true) :
    ((r.evict).1 = none ↔ ∀ p ∈ r.nodeStore, p.2.isEvictable = false) ∧
    (∀ f0, firstEmptyEv r.nodeStore = some f0 → (r.evict).1 = some f0) ∧
    (∀ f, (r.evict).1 = some f →
      ∃ n, (f, n) ∈ r.nodeStore ∧ n.isEvictable = true ∧
        (firstEmptyEv r.nodeStore = none →
          ((∃ p ∈ r.nodeStore, infEntry r.k p) →
            n.history.length < r.k ∧
            ∀ p ∈ r.nodeStore, infEntry r.k p →
              n.history.headD 0 ≤ p.2.history.headD 0) ∧
          ((∀ p ∈ r.nodeStore, ¬ infEntry r.k p) →
            r.k ≤ n.history.length ∧
            ∀ p ∈ r.nodeStore, p.2.isEvictable = true →
              n.history.headD 0 ≤ p.2.history.headD 0))) := by
  have hk : 1 ≤ r.k := by
    simp only [replacerWF, Bool.and_eq_true, decide_eq_true_eq] at hwf
    exact hwf.1
  have hts : ∀ p ∈ r.nodeStore, nodeTsOK r.currentTimestamp p.2 = true := by
    simp only [replacerWF, Bool.and_eq_true, List.all_eq_true] at hwf
    exact hwf.2
  set st0 : ScanSt :=
    { fid := none, ts := r.currentTimestamp + 1, infFid := none,
      infTs := r.currentTimestamp + 1 } with hst0
  set st1 : ScanSt := evictScan r.k r.nodeStore st0 with hst1
  cases hfe : r.nodeStore.find? emptyEv with
  | some p0 =>
    have hbrk : st1.infFid = some p0.1 := evictScan_break r.k hk r.nodeStore st0 p0 hfe
    have hev : (r.evict).1 = some p0.1 := by
      simp only [LRUKReplacer.evict, ← hst0, ← hst1, hbrk]
    have hp0mem : p0 ∈ r.nodeStore := List.mem_of_find?_eq_some hfe
    have hp0e : emptyEv p0 = true := List.find?_some hfe
    have hp0ev : p0.2.isEvictable = true := by
      simp only [emptyEv, Bool.and_eq_true] at hp0e
      exact hp0e.1
    refine ⟨?_, ?_, ?_⟩
    · constructor
      · intro hx; rw [hev] at hx; cases hx
      · intro hall
        rw [hall p0 hp0mem] at hp0ev
        cases hp0ev
    · intro f0 hf0
      simp [firstEmptyEv, hfe] at hf0
      rw [hev, hf0]
    · intro f hf
      rw [hev] at hf
      have hfp : f = p0.1 := (Option.some_inj.mp hf).symm
      subst hfp
      refine ⟨p0.2, by simpa using hp0mem, hp0ev, ?_⟩
      intro hnone
      simp [firstEmptyEv, hfe] at hnone
  | none =>
    have hne : ∀ p ∈ r.nodeStore, emptyEv p = false := by
      intro p hp
      have := List.find?_eq_none.mp hfe p hp
      cases hx : emptyEv p with
      | false => rfl
      | true => exact absurd hx this
    have hfe2 : firstEmptyEv r.nodeStore = none := by simp [firstEmptyEv, hfe]
    obtain ⟨i1, i2, i3, i4, i5⟩ :=
      evictScan_noEmpty r.k r.currentTimestamp r.nodeStore st0 hne hts
        (fun _ => Nat.lt_succ_self _)
    by_cases hinf : ∃ p ∈ r.nodeStore, infEntry r.k p
    · have hsome : st1.infFid ≠ none := by
        intro hx
        obtain ⟨p, hp, hpi⟩ := hinf
        exact (i5.mp hx).2 p hp hpi
      cases hg : st1.infFid with
      | none => exact absurd hg hsome
      | some g =>
        have hev : (r.evict).1 = some g := by
          simp only [LRUKReplacer.evict, ← hst0, ← hst1, hg]
        rcases i3 with ⟨h1, _⟩ | ⟨p, hp, hpi, hpf, hpt⟩
        · rw [← hst1] at h1
          rw [h1] at hg
          cases hg
        · rw [← hst1] at hpf hpt
          have hgp : g = p.1 := by rw [hpf] at hg; exact (Option.some_inj.mp hg).symm
          subst hgp
          refine ⟨?_, ?_, ?_⟩
          · constructor
            · intro hx; rw [hev] at hx; cases hx
            · intro hall
              have hx := hpi.1
              rw [hall p hp] at hx
              cases hx
          · intro f0 hf0
            rw [hfe2] at hf0
            cases hf0
          · intro f hf
            rw [hev] at hf
            have hfp : f = p.1 := (Option.some_inj.mp hf).symm
            subst hfp
            refine ⟨p.2, by simpa using hp, hpi.1, fun _ => ⟨fun _ => ⟨hpi.2, ?_⟩, ?_⟩⟩
            · intro q hq hqi
              rw [← hpt]
              exact i4 q hq hqi
            · intro hnone
              exact absurd hpi (hnone p hp)
    · have hni : ∀ p ∈ r.nodeStore, ¬ infEntry r.k p := by
        intro p hp hpi
        exact hinf ⟨p, hp, hpi⟩
      obtain ⟨j1, j2, j3, j4, j5⟩ :=
        evictScan_noInf r.k r.currentTimestamp hk r.nodeStore st0 hni hts rfl
          (fun _ => Nat.lt_succ_self _)
      rw [← hst1] at j1 j3 j4 j5
      by_cases hev2 : ∃ p ∈ r.nodeStore, p.2.isEvictable = true
      · have hsome : st1.fid ≠ none := by
          intro hx
          obtain ⟨p, hp, hpe⟩ := hev2
          rw [(j5.mp hx).2 p hp] at hpe
          cases hpe
        cases hg : st1.fid with
        | none => exact absurd hg hsome
        | some g =>
          have hev : (r.evict).1 = some g := by
            simp only [LRUKReplacer.evict, ← hst0, ← hst1, j1, hg]
          rcases j3 with ⟨h1, _⟩ | ⟨p, hp, hpe, hpf, hpt⟩
          · rw [h1] at hg
            cases hg
          · have hgp : g = p.1 := by rw [hpf] at hg; exact (Option.some_inj.mp hg).symm
            subst hgp
            refine ⟨?_, ?_, ?_⟩
            · constructor
              · intro hx; rw [hev] at hx; cases hx
              · intro hall
                rw [hall p hp] at hpe
                cases hpe
            · intro f0 hf0
              rw [hfe2] at hf0
              cases hf0
            · intro f hf
              rw [hev] at hf
              have hfp : f = p.1 := (Option.some_inj.mp hf).symm
              subst hfp
              refine ⟨p.2, by simpa using hp, hpe, fun _ => ⟨?_, fun _ => ⟨?_, ?_⟩⟩⟩
              · intro hx
                exact absurd hx hinf
              · have := hni p hp
                simp only [infEntry, not_and] at this
                exact le_of_not_lt (this hpe)
              · intro q hq hqe
                rw [← hpt]
                exact j4 q hq hqe
      · have hall : ∀ p ∈ r.nodeStore, p.2.isEvictable = false := by
          intro p hp
          cases hx : p.2.isEvictable with
          | false => rfl
          | true => exact absurd ⟨p, hp, hx⟩ hev2
        have hnone : st1.fid = none := j5.mpr ⟨rfl, hall⟩
        have hev : (r.evict).1 = none := by
          simp only [LRUKReplacer.evict, ← hst0, ← hst1, j1, hnone]
        refine ⟨⟨fun _ => hall, fun _ => hev⟩, ?_, ?_⟩
        · intro f0 hf0
          rw [hfe2] at hf0
          cases hf0
        · intro f hf
          rw [hev] at hf
          cases hf

/-- With no evictable frame tracked, `Evict` fails (both scan candidates stay
empty). -/
theorem evict_eq_none (r : LRUKReplacer) (hwf : replacerWF r = true)
    (hno : ∀ p ∈ r.nodeStore, p.2.isEvictable = false) : (r.evict).1 = none := by
  have hk : 1 ≤ r.k := by
    simp only [replacerWF, Bool.and_eq_true, decide_eq_true_eq] at hwf
    exact hwf.1
  have hts : ∀ p ∈ r.nodeStore, nodeTsOK r.currentTimestamp p.2 = true := by
    simp only [replacerWF, Bool.and_eq_true, List.all_eq_true] at hwf
    exact hwf.2
  have hni : ∀ p ∈ r.nodeStore, ¬ infEntry r.k p := by
    intro p hp hpi
    have hx := hpi.1
    rw [hno p hp] at hx
    cases hx
  obtain ⟨j1, _, _, _, j5⟩ :=
    evictScan_noInf r.k r.currentTimestamp hk r.nodeStore
      { fid := none, ts := r.currentTimestamp + 1, infFid := none,
        infTs := r.currentTimestamp + 1 } hni hts rfl (fun _ => Nat.lt_succ_self _)
  have hfid := j5.mpr ⟨rfl, hno⟩
  simp only [LRUKReplacer.evict, j1, hfid]

/-- Witness for the amended C1 theorem at the concrete state `c1state`. -/
theorem claim_C1_amended_witness :
    replacerWF c1state = true ∧
    ((c1state.evict).1 = none ↔ ∀ p ∈ c1state.nodeStore, p.2.isEvictable = false) :=
  ⟨by decide, (claim_C1_amended c1state (by decide)).1⟩

end BusLRU

namespace BusBPM

/-- Events of a buffer-pool operation, in program order: pool-latch
acquisition and release, and the two disk-manager calls. -/
inductive Ev where
  | lock
  | unlock
  | readPage (pid : Int)
  | writePage (pid : Int)
  deriving DecidableEq

/-- Frame metadata of a pool page (`Page` from `page.h`): bound page id
(`INVALID_PAGE_ID = -1` when unbound), pin count and dirty flag.  The raw data
buffer is not modelled; disk transfers appear as trace events. -/
structure Page where
  pageId : Int
  pinCount : Nat
  isDirty : Bool
  deriving DecidableEq

/-- `std::unordered_map` lookup for the page table (`page_id → frame_id`). -/
def lookupP : List (Int × Nat) → Int → Option Nat
  | [], _ => none
  | (p, f) :: rest, p0 => if p = p0 then some f else lookupP rest p0

/-- Page-table insertion (replace or append). -/
def insertP : List (Int × Nat) → Int → Nat → List (Int × Nat)
  | [], p, f => [(p, f)]
  | (p1, f1) :: rest, p, f =>
    if p1 = p then (p, f) :: rest else (p1, f1) :: insertP rest p f

/-- Page-table erasure. -/
def eraseP : List (Int × Nat) → Int → List (Int × Nat)
  | [], _ => []
  | (p1, f1) :: rest, p =>
    if p1 = p then rest else (p1, f1) :: eraseP rest p

/-- `BufferPoolManager` state: the frame array, the page table, the free list
(frames taken from the back), the LRU-K replacer and the `next_page_id_`
allocator. -/
structure BPM where
  pages : List Page
  pageTable : List (Int × Nat)
  freeList : List Nat
  replacer : BusLRU.LRUKReplacer
  nextPageId : Nat
  deriving DecidableEq

/-- The constructor (`buffer_pool_manager.cpp` lines 21–32): all frames
unbound and free. -/
def bpmInit (poolSize replacerK : Nat) : BPM :=
  { pages := List.replicate poolSize { pageId := -1, pinCount := 0, isDirty := false },
    pageTable := [],
    freeList := List.range poolSize,
    replacer := BusLRU.lruInit poolSize replacerK,
    nextPageId := 0 }

/-- Shared tail of `NewPage` (lines 62–75): reset the frame, bind the freshly
allocated id with pin count one, publish it in the table and inform the
replacer. -/
def newPageFinish (s : BPM) (fid : Nat) (evs : List Ev) : Option Int × BPM × List Ev :=
  let pid : Int := s.nextPageId
  let s1 : BPM :=
    { s with
      pages := s.pages.set fid { pageId := pid, pinCount := 1, isDirty := false },
      nextPageId := s.nextPageId + 1 }
  let s2 : BPM :=
    { s1 with
      pageTable := insertP s1.pageTable pid fid,
      replacer := (s1.replacer.setEvictable fid false).recordAccess fid }
  (some pid, s2, evs ++ [Ev.lock, Ev.unlock])

/-- `BufferPoolManager::NewPage` (lines 36–76).  On the eviction path the
dirty victim is written back BEFORE the latch is released (line 58 precedes
line 60). -/
def BPM.newPage (s : BPM) : Option Int × BPM × List Ev :=
  match s.freeList.getLast? with
  | some fid =>
    newPageFinish { s with freeList := s.freeList.dropLast } fid [Ev.lock, Ev.unlock]
  | none =>
    match s.replacer.evict with
    | (none, _) => (none, s, [Ev.lock, Ev.unlock])
    | (some fid, repl1) =>
      match s.pages[fid]? with
      | none => (none, s, [Ev.lock, Ev.unlock])
      | some pg =>
        let s1 : BPM :=
          { s with
            replacer := repl1,
            pageTable := if pg.pageId ≠ -1 then eraseP s.pageTable pg.pageId else s.pageTable }
        newPageFinish s1 fid
          ([Ev.lock] ++ (if pg.isDirty then [Ev.writePage pg.pageId] else []) ++ [Ev.unlock])

/-- Shared tail of `FetchPage` (lines 148–152): record the access under the
latch and return the frame. -/
def fetchFinish (s : BPM) (fid : Nat) (evs : List Ev) : Option Nat × BPM × List Ev :=
  (some fid, { s with replacer := s.replacer.recordAccess fid }, evs ++ [Ev.lock, Ev.unlock])

/-- Middle part of `FetchPage` on a miss (lines 117–145): bind the frame, read
the page from disk with the latch released, then re-check the table (the
conflict branch is dead in this sequential embedding but modelled
faithfully). -/
def fetchLoad (s : BPM) (fid : Nat) (pid : Int) (evs : List Ev) : Option Nat × BPM × List Ev :=
  let s1 : BPM :=
    { s with pages := s.pages.set fid { pageId := pid, pinCount := 1, isDirty := false } }
  let evs1 := evs ++ [Ev.readPage pid, Ev.lock]
  match lookupP s1.pageTable pid with
  | none =>
    let s2 : BPM :=
      { s1 with
        pageTable := insertP s1.pageTable pid fid,
        replacer := s1.replacer.setEvictable fid false }
    fetchFinish s2 fid (evs1 ++ [Ev.unlock])
  | some fid0 =>
    let s2 : BPM :=
      { s1 with
        pages := s1.pages.set fid { pageId := -1, pinCount := 0, isDirty := false },
        freeList := s1.freeList ++ [fid] }
    match s2.pages[fid0]? with
    | none => (none, s2, evs1 ++ [Ev.unlock])
    | some pg0 =>
      let pg1 : Page := { pg0 with pinCount := pg0.pinCount + 1 }
      let repl1 := if pg1.pinCount = 1 then s2.replacer.setEvictable fid0 false else s2.replacer
      fetchFinish { s2 with pages := s2.pages.set fid0 pg1, replacer := repl1 } fid0
        (evs1 ++ [Ev.unlock])

/-- `BufferPoolManager::FetchPage` (lines 78–153).  A hit bumps the pin count;
a miss acquires a frame (free list, then eviction with write-back of a dirty
victim under the latch) and reads from disk outside the latch. -/
def BPM.fetchPage (s : BPM) (pid : Int) : Option Nat × BPM × List Ev :=
  match lookupP s.pageTable pid with
  | some fid =>
    match s.pages[fid]? with
    | none => (none, s, [Ev.lock, Ev.unlock])
    | some pg =>
      let pg1 : Page := { pg with pinCount := pg.pinCount + 1 }
      let repl1 := if pg1.pinCount = 1 then s.replacer.setEvictable fid false else s.replacer
      fetchFinish { s with pages := s.pages.set fid pg1, replacer := repl1 } fid
        [Ev.lock, Ev.unlock]
  | none =>
    match s.freeList.getLast? with
    | some fid =>
      fetchLoad { s with freeList := s.freeList.dropLast } fid pid [Ev.lock, Ev.unlock]
    | none =>
      match s.replacer.evict with
      | (none, _) => (none, s, [Ev.lock, Ev.unlock])
      | (some fid, repl1) =>
        match s.pages[fid]? with
        | none => (none, s, [Ev.lock, Ev.unlock])
        | some pg =>
          let s1 : BPM :=
            { s with
              replacer := repl1,
              pageTable := if pg.pageId ≠ -1 then eraseP s.pageTable pg.pageId else s.pageTable }
          fetchLoad s1 fid pid
            ([Ev.lock] ++ (if pg.isDirty then [Ev.writePage pg.pageId] else []) ++ [Ev.unlock])

/-- `BufferPoolManager::UnpinPage` (lines 155–178). -/
def BPM.unpinPage (s : BPM) (pid : Int) (dirty : Bool) : Bool × BPM × List Ev :=
  match lookupP s.pageTable pid with
  | none => (false, s, [Ev.lock, Ev.unlock])
  | some fid =>
    match s.pages[fid]? with
    | none => (false, s, [Ev.lock, Ev.unlock])
    | some pg =>
      if pg.pinCount = 0 then (false, s, [Ev.lock, Ev.unlock])
      else
        let pg1 : Page := { pg with pinCount := pg.pinCount - 1, isDirty := pg.isDirty || dirty }
        let repl1 := if pg1.pinCount = 0 then s.replacer.setEvictable fid true else s.replacer
        (true, { s with pages := s.pages.set fid pg1, replacer := repl1 },
          [Ev.lock, Ev.unlock])

/-- `BufferPoolManager::FlushPage` (lines 180–192): the write to disk happens
between the lock (line 181) and the unlock (line 190). -/
def BPM.flushPage (s : BPM) (pid : Int) : Bool × BPM × List Ev :=
  match lookupP s.pageTable pid with
  | none => (false, s, [Ev.lock, Ev.unlock])
  | some fid =>
    match s.pages[fid]? with
    | none => (false, s, [Ev.lock, Ev.unlock])
    | some pg =>
      (true, { s with pages := s.pages.set fid { pg with isDirty := false } },
        [Ev.lock, Ev.writePage pg.pageId, Ev.unlock])

/-- `BufferPoolManager::FlushAllPages` (lines 194–203): one lock/write/unlock
block per bound frame. -/
def BPM.flushAllPages (s : BPM) : BPM × List Ev :=
  ({ s with pages := s.pages.map (fun pg =>
      if pg.pageId ≠ -1 then { pg with isDirty := false } else pg) },
    s.pages.foldr (fun pg acc =>
      (if pg.pageId ≠ -1 then [Ev.lock, Ev.writePage pg.pageId, Ev.unlock] else []) ++ acc) [])

/-- `BufferPoolManager::DeletePage` (lines 205–237): flush-if-dirty under the
latch, detach, untrack, reset the frame outside the latch, then return the
frame to the free list under the latch again. -/
def BPM.deletePage (s : BPM) (pid : Int) : Bool × BPM × List Ev :=
  match lookupP s.pageTable pid with
  | none => (true, s, [Ev.lock, Ev.unlock])
  | some fid =>
    match s.pages[fid]? with
    | none => (true, s, [Ev.lock, Ev.unlock])
    | some pg =>
      if 0 < pg.pinCount then (false, s, [Ev.lock, Ev.unlock])
      else
        let s1 : BPM :=
          { s with
            pageTable := eraseP s.pageTable pid,
            replacer := s.replacer.remove fid,
            pages := s.pages.set fid { pageId := -1, pinCount := 0, isDirty := false } }
        (true, { s1 with freeList := s1.freeList ++ [fid] },
          [Ev.lock] ++ (if pg.isDirty then [Ev.writePage pg.pageId] else []) ++
            [Ev.unlock, Ev.lock, Ev.unlock])

/-! Trace predicates for the latch/IO discipline (claim C4). -/

/-- Latch depth after a trace (lock = +1, unlock = −1). -/
def depthAfter : List Ev → Nat → Nat
  | [], d => d
  | Ev.lock :: rest, d => depthAfter rest (d + 1)
  | Ev.unlock :: rest, d => depthAfter rest (d - 1)
  | Ev.readPage _ :: rest, d => depthAfter rest d
  | Ev.writePage _ :: rest, d => depthAfter rest d

/-- Some disk read occurs while the latch is held. -/
def anyReadUnder : List Ev → Nat → Bool
  | [], _ => false
  | Ev.lock :: rest, d => anyReadUnder rest (d + 1)
  | Ev.unlock :: rest, d => anyReadUnder rest (d - 1)
  | Ev.readPage _ :: rest, d => decide (0 < d) || anyReadUnder rest d
  | Ev.writePage _ :: rest, d => anyReadUnder rest d

/-- Some disk write occurs while the latch is NOT held. -/
def anyWriteOutside : List Ev → Nat → Bool
  | [], _ => false
  | Ev.lock :: rest, d => anyWriteOutside rest (d + 1)
  | Ev.unlock :: rest, d => anyWriteOutside rest (d - 1)
  | Ev.readPage _ :: rest, d => anyWriteOutside rest d
  | Ev.writePage _ :: rest, d => decide (d = 0) || anyWriteOutside rest d

/-- Some disk access (read or write) occurs while the latch is held. -/
def anyIOUnder : List Ev → Nat → Bool
  | [], _ => false
  | Ev.lock :: rest, d => anyIOUnder rest (d + 1)
  | Ev.unlock :: rest, d => anyIOUnder rest (d - 1)
  | Ev.readPage _ :: rest, d => decide (0 < d) || anyIOUnder rest d
  | Ev.writePage _ :: rest, d => decide (0 < d) || anyIOUnder rest d

theorem anyReadUnder_append (a b : List Ev) (d : Nat) :
    anyReadUnder (a ++ b) d = (anyReadUnder a d || anyReadUnder b (depthAfter a d)) := by
  induction a generalizing d with
  | nil => simp [anyReadUnder, depthAfter]
  | cons e rest ih => cases e <;> simp [anyReadUnder, depthAfter, ih, Bool.or_assoc]

theorem anyWriteOutside_append (a b : List Ev) (d : Nat) :
    anyWriteOutside (a ++ b) d = (anyWriteOutside a d || anyWriteOutside b (depthAfter a d)) := by
  induction a generalizing d with
  | nil => simp [anyWriteOutside, depthAfter]
  | cons e rest ih => cases e <;> simp [anyWriteOutside, depthAfter, ih, Bool.or_assoc]

/-- The discipline actually followed by every trace the pool emits: reads
outside the latch, writes inside it, and the latch released at the end. -/
def TraceOK (evs : List Ev) : Prop :=
  anyReadUnder evs 0 = false ∧ anyWriteOutside evs 0 = false ∧ depthAfter evs 0 = 0

theorem traceOK_append (a b : List Ev) (ha : TraceOK a) (hb : TraceOK b) :
    TraceOK (a ++ b) := by
  obtain ⟨ha1, ha2, ha3⟩ := ha
  obtain ⟨hb1, hb2, hb3⟩ := hb
  refine ⟨?_, ?_, ?_⟩
  · rw [anyReadUnder_append, ha1, ha3, hb1]; rfl
  · rw [anyWriteOutside_append, ha2, ha3, hb2]; rfl
  · have : ∀ (a b : List Ev) (d : Nat), depthAfter (a ++ b) d = depthAfter b (depthAfter a d) := by
      intro a
      induction a with
      | nil => intro b d; rfl
      | cons e rest ih => intro b d; cases e <;> simp [depthAfter, ih]
    rw [this, ha3, hb3]

theorem traceOK_lock_unlock : TraceOK [Ev.lock, Ev.unlock] := by
  refine ⟨rfl, rfl, rfl⟩

theorem traceOK_lock_write_unlock (p : Int) : TraceOK [Ev.lock, Ev.writePage p, Ev.unlock] := by
  refine ⟨rfl, by simp [anyWriteOutside], rfl⟩

theorem traceOK_read (p : Int) : TraceOK [Ev.readPage p] := by
  refine ⟨by simp [anyReadUnder], rfl, rfl⟩

theorem traceOK_victim (pg : Page) :
    TraceOK ([Ev.lock] ++ (if pg.isDirty then [Ev.writePage pg.pageId] else []) ++ [Ev.unlock]) := by
  by_cases h : pg.isDirty
  · simp only [h, if_true]
    exact traceOK_lock_write_unlock pg.pageId
  · simp only [h, Bool.false_eq_true, if_false]
    exact traceOK_lock_unlock

theorem newPageFinish_ok (s : BPM) (fid : Nat) (evs : List Ev) (h : TraceOK evs) :
    TraceOK (newPageFinish s fid evs).2.2 :=
  traceOK_append _ _ h traceOK_lock_unlock

theorem fetchFinish_ok (s : BPM) (fid : Nat) (evs : List Ev) (h : TraceOK evs) :
    TraceOK (fetchFinish s fid evs).2.2 :=
  traceOK_append _ _ h traceOK_lock_unlock

theorem fetchLoad_ok (s : BPM) (fid : Nat) (pid : Int) (evs : List Ev) (h : TraceOK evs) :
    TraceOK (fetchLoad s fid pid evs).2.2 := by
  have h1 : TraceOK (evs ++ [Ev.readPage pid, Ev.lock] ++ [Ev.unlock]) := by
    have h2 : (evs ++ [Ev.readPage pid, Ev.lock] ++ [Ev.unlock]) =
        evs ++ ([Ev.readPage pid] ++ [Ev.lock, Ev.unlock]) := by simp
    rw [h2]
    exact traceOK_append _ _ h (traceOK_append _ _ (traceOK_read pid) traceOK_lock_unlock)
  unfold fetchLoad
  dsimp only
  split
  · exact fetchFinish_ok _ _ _ h1
  · split
    · exact h1
    · exact fetchFinish_ok _ _ _ h1

/-- C4 (amended): the pool latch is never held across a disk READ — `FetchPage`
reads from disk only after releasing the latch — but every disk WRITE (the
dirty-victim write-back in `NewPage`/`FetchPage`, and the writes in
`FlushPage`, `FlushAllPages` and `DeletePage`) is performed while the latch is
held. -/
theorem claim_C4_amended (s : BPM) (pid : Int) (dirty : Bool) :
    TraceOK (s.newPage).2.2 ∧
    TraceOK (s.fetchPage pid).2.2 ∧
    TraceOK (s.unpinPage pid dirty).2.2 ∧
    TraceOK (s.flushPage pid).2.2 ∧
    TraceOK (s.flushAllPages).2 ∧
    TraceOK (s.deletePage pid).2.2 := by
  refine ⟨?_, ?_, ?_, ?_, ?_, ?_⟩
  · unfold BPM.newPage
    split
    · exact newPageFinish_ok _ _ _ traceOK_lock_unlock
    · split
      · exact traceOK_lock_unlock
      · split
        · exact traceOK_lock_unlock
        · exact newPageFinish_ok _ _ _ (traceOK_victim _)
  · unfold BPM.fetchPage
    split
    · split
      · exact traceOK_lock_unlock
      · exact fetchFinish_ok _ _ _ traceOK_lock_unlock
    · split
      · exact fetchLoad_ok _ _ _ _ traceOK_lock_unlock
      · split
        · exact traceOK_lock_unlock
        · split
          · exact traceOK_lock_unlock
          · exact fetchLoad_ok _ _ _ _ (traceOK_victim _)
  · unfold BPM.unpinPage
    split
    · exact traceOK_lock_unlock
    · split
      · exact traceOK_lock_unlock
      · split
        · exact traceOK_lock_unlock
        · exact traceOK_lock_unlock
  · unfold BPM.flushPage
    split
    · exact traceOK_lock_unlock
    · split
      · exact traceOK_lock_unlock
      · exact traceOK_lock_write_unlock _
  · show TraceOK (s.pages.foldr _ [])
    induction s.pages with
    | nil => exact ⟨rfl, rfl, rfl⟩
    | cons pg rest ih =>
      rw [List.foldr_cons]
      refine traceOK_append _ _ ?_ ih
      by_cases h : pg.pageId ≠ -1
      · rw [if_pos h]
        exact traceOK_lock_write_unlock pg.pageId
      · rw [if_neg h]
        exact ⟨rfl, rfl, rfl⟩
  · unfold BPM.deletePage
    split
    · exact traceOK_lock_unlock
    · split
      · exact traceOK_lock_unlock
      · split
        · exact traceOK_lock_unlock
        · have h2 : ∀ pg : Page, ([Ev.lock] ++ (if pg.isDirty then [Ev.writePage pg.pageId] else []) ++
              [Ev.unlock, Ev.lock, Ev.unlock]) =
              ([Ev.lock] ++ (if pg.isDirty then [Ev.writePage pg.pageId] else []) ++ [Ev.unlock]) ++
                [Ev.lock, Ev.unlock] := by intro pg; simp
          rw [h2]
          exact traceOK_append _ _ (traceOK_victim _) traceOK_lock_unlock

/-- Counterexample to C4 as stated: flushing the very first page created in a
fresh pool performs its `WritePage` strictly between the latch acquisition and
release — a disk write occurs while the pool-wide latch is held. -/
theorem claim_C4_counterexample :
    anyIOUnder ((((bpmInit 1 2).newPage).2.1).flushPage 0).2.2 0 = true ∧
    Ev.writePage 0 ∈ ((((bpmInit 1 2).newPage).2.1).flushPage 0).2.2 := by
  decide

/-- C8: `UnpinPage` returns false and changes nothing when the page id is not
in the page table or the pin count is already zero; otherwise it decrements
the pin count, ORs the dirty flag, marks the frame evictable exactly when the
pin count reaches zero, and returns true (no other frame, the page table, the
free list and the allocator are untouched). -/
theorem claim_C8 (s : BPM) (pid : Int) (dirty : Bool) :
    (lookupP s.pageTable pid = none →
      (s.unpinPage pid dirty).1 = false ∧ (s.unpinPage pid dirty).2.1 = s) ∧
    (∀ fid pg, lookupP s.pageTable pid = some fid → s.pages[fid]? = some pg →
      (pg.pinCount = 0 →
        (s.unpinPage pid dirty).1 = false ∧ (s.unpinPage pid dirty).2.1 = s) ∧
      (0 < pg.pinCount →
        (s.unpinPage pid dirty).1 = true ∧
        (s.unpinPage pid dirty).2.1.pages[fid]? =
          some { pageId := pg.pageId, pinCount := pg.pinCount - 1,
                 isDirty := pg.isDirty || dirty } ∧
        (∀ fid2, fid2 ≠ fid →
          (s.unpinPage pid dirty).2.1.pages[fid2]? = s.pages[fid2]?) ∧
        (s.unpinPage pid dirty).2.1.pageTable = s.pageTable ∧
        (s.unpinPage pid dirty).2.1.freeList = s.freeList ∧
        (s.unpinPage pid dirty).2.1.nextPageId = s.nextPageId ∧
        (s.unpinPage pid dirty).2.1.replacer =
          (if pg.pinCount = 1 then s.replacer.setEvictable fid true else s.replacer))) := by
  constructor
  · intro h
    simp [BPM.unpinPage, h]
  · intro fid pg hfid hpg
    constructor
    · intro hzero
      simp [BPM.unpinPage, hfid, hpg, hzero]
    · intro hpos
      have hnz : ¬ pg.pinCount = 0 := by omega
      have hone : (pg.pinCount - 1 = 0) = (pg.pinCount = 1) := by
        apply propext
        omega
      have hlt : fid < s.pages.length := by
        by_contra hc
        rw [List.getElem?_eq_none (by omega)] at hpg
        cases hpg
      simp only [BPM.unpinPage, hfid, hpg, hnz, if_false]
      refine ⟨by trivial, ?_, ?_, by trivial, by trivial, by trivial, ?_⟩
      · exact List.getElem?_set_eq_of_lt _ hlt
      · intro fid2 hfid2
        exact List.getElem?_set_ne (fun h => hfid2 h.symm)
      · simp only [hone]

/-- Witness for C8: unpinning the sole pinned page of a one-frame pool
decrements its pin count to zero and merges the dirty flag. -/
theorem claim_C8_witness :
    (((bpmInit 1 2).newPage).2.1.unpinPage 0 true).1 = true ∧
    (((bpmInit 1 2).newPage).2.1.unpinPage 0 true).2.1.pages[0]? =
      some { pageId := 0, pinCount := 0, isDirty := true } := by
  have h := ((claim_C8 ((bpmInit 1 2).newPage).2.1 0 true).2 0
      { pageId := 0, pinCount := 1, isDirty := false } (by decide) (by decide)).2 (by decide)
  exact ⟨h.1, h.2.1⟩

/-- C10: with an empty free list and no evictable frame, `NewPage` fails
without consuming a page id from `next_page_id_` and `FetchPage` of a
non-resident page fails; in both cases the entire state (page table, free
list, frame metadata, replacer, allocator) is unchanged. -/
theorem claim_C10 (s : BPM) (pid : Int)
    (hfree : s.freeList = [])
    (hwfr : BusLRU.replacerWF s.replacer = true)
    (hnoev : ∀ p ∈ s.replacer.nodeStore, p.2.isEvictable = false) :
    (s.newPage).1 = none ∧ (s.newPage).2.1 = s ∧
    (s.newPage).2.1.nextPageId = s.nextPageId ∧
    (lookupP s.pageTable pid = none →
      (s.fetchPage pid).1 = none ∧ (s.fetchPage pid).2.1 = s) := by
  have hev : (s.replacer.evict).1 = none := BusLRU.evict_eq_none _ hwfr hnoev
  rcases hx : s.replacer.evict with ⟨o, r2⟩
  have ho : o = none := by rw [hx] at hev; exact hev
  subst ho
  have hnew : s.newPage = (none, s, [Ev.lock, Ev.unlock]) := by
    unfold BPM.newPage
    rw [hfree]
    simp [hx]
  refine ⟨by rw [hnew], by rw [hnew], by rw [hnew], ?_⟩
  intro hmiss
  have hfetch : s.fetchPage pid = (none, s, [Ev.lock, Ev.unlock]) := by
    unfold BPM.fetchPage
    rw [hmiss, hfree]
    simp [hx]
  exact ⟨by rw [hfetch], by rw [hfetch]⟩

/-- Witness for C10: a one-frame pool whose only frame is pinned has an empty
free list and nothing evictable; `NewPage` and a `FetchPage` miss both fail
with the state unchanged. -/
theorem claim_C10_witness :
    ((((bpmInit 1 2).newPage).2.1).newPage).1 = none ∧
    ((((bpmInit 1 2).newPage).2.1).fetchPage 5).1 = none := by
  have h := claim_C10 ((bpmInit 1 2).newPage).2.1 5 (by decide) (by decide) (by decide)
  exact ⟨h.1, (h.2.2.2 (by decide)).1⟩

end BusBPM

namespace BusGuard

/-- Pool-side effects of a guard operation. -/
inductive GEv where
  | unpin (pid : Int) (dirty : Bool)
  | runlatch (pid : Int)
  | wunlatch (pid : Int)
  deriving DecidableEq

/-- `BasicPageGuard` (`page_guard.h`): non-null pool pointer, the held page
(identified by its page id; `none` models `page_ == nullptr`), and the dirty
flag to propagate. -/
structure BasicPageGuard where
  bpmValid : Bool
  page : Option Int
  isDirty : Bool
  deriving DecidableEq

/-- The state a guard is left in after a drop or a move-from. -/
def deadGuard : BasicPageGuard := { bpmValid := false, page := none, isDirty := false }

/-- `BasicPageGuard::Drop` (`page_guard.cpp` lines 11–16): unconditionally
calls `bpm_->UnpinPage(page_->GetPageId(), is_dirty_)` and clears its fields.
With a null `page_` (or `bpm_`) this dereferences a null pointer, modelled as
`error`. -/
def BasicPageGuard.drop (g : BasicPageGuard) : Except Unit (BasicPageGuard × List GEv) :=
  match g.page with
  | none => .error ()
  | some pid =>
    if g.bpmValid = false then .error ()
    else .ok (deadGuard, [.unpin pid g.isDirty])

/-- `BasicPageGuard::~BasicPageGuard` (lines 28–32): drops only when `page_`
is non-null. -/
def BasicPageGuard.destruct (g : BasicPageGuard) : Except Unit (List GEv) :=
  match g.page with
  | none => .ok []
  | some _ => (g.drop).map (·.2)

/-- The move constructor (lines 6–9): the source is exchanged to empty. -/
def BasicPageGuard.moveFrom (g : BasicPageGuard) : BasicPageGuard × BasicPageGuard :=
  (g, deadGuard)

/-- Move assignment (lines 18–26): a live destination is dropped first, then
the source's fields are stolen. -/
def BasicPageGuard.moveAssign (dst src : BasicPageGuard) :
    Except Unit (BasicPageGuard × BasicPageGuard × List GEv) :=
  match dst.page with
  | none => .ok (src, deadGuard, [])
  | some _ => (dst.drop).map (fun r => (src, deadGuard, r.2))

/-- `ReadPageGuard`: wraps a basic guard; shown with the page latch events. -/
structure ReadPageGuard where
  guard : BasicPageGuard
  deriving DecidableEq

/-- `ReadPageGuard::PageId` (lines 50–55): INVALID (−1) for an empty guard. -/
def ReadPageGuard.pageId (g : ReadPageGuard) : Int :=
  match g.guard.page with
  | none => -1
  | some pid => pid

/-- `ReadPageGuard::Drop` (lines 57–60): `guard_.page_->RUnlatch()` without a
null check, then the basic drop. -/
def ReadPageGuard.drop (g : ReadPageGuard) : Except Unit (ReadPageGuard × List GEv) :=
  match g.guard.page with
  | none => .error ()
  | some pid =>
    (g.guard.drop).map (fun r => (⟨r.1⟩, GEv.runlatch pid :: r.2))

/-- `ReadPageGuard::~ReadPageGuard` (lines 62–66). -/
def ReadPageGuard.destruct (g : ReadPageGuard) : Except Unit (List GEv) :=
  match g.guard.page with
  | none => .ok []
  | some _ => (g.drop).map (·.2)

/-- `WritePageGuard::Drop` (lines 84–87): `WUnlatch` without a null check,
then the basic drop. -/
def WritePageGuard.drop (g : ReadPageGuard) : Except Unit (ReadPageGuard × List GEv) :=
  match g.guard.page with
  | none => .error ()
  | some pid =>
    (g.guard.drop).map (fun r => (⟨r.1⟩, GEv.wunlatch pid :: r.2))

/-- Counterexample to C9 as stated: after a successful explicit `Drop()`, a
second explicit `Drop()` does not silently do nothing — it dereferences the
null `page_` pointer (`page_->GetPageId()` at line 12), modelled as an error.
Only the destructor checks `page_` first. -/
theorem claim_C9_counterexample :
    BasicPageGuard.drop { bpmValid := true, page := some 3, isDirty := false } =
      .ok (deadGuard, [.unpin 3 false]) ∧
    BasicPageGuard.drop deadGuard = .error () := by
  exact ⟨rfl, rfl⟩

/-- C9 (amended): for every guard obtained from a successful pin, exactly one
pool-side unpin occurs over its whole lifetime, with the guard's dirty flag
propagated at that unpin, and the DESTRUCTOR is idempotent: after a manual
drop or a move-from it performs no second unpin and no error.  Explicit
`Drop()` however is not idempotent: on an already-dropped guard it
dereferences a null pointer.  Read/write guards release their latch before
the single unpin. -/
theorem claim_C9_amended (pid : Int) (d : Bool) :
    BasicPageGuard.drop { bpmValid := true, page := some pid, isDirty := d } =
      .ok (deadGuard, [.unpin pid d]) ∧
    BasicPageGuard.destruct deadGuard = .ok [] ∧
    BasicPageGuard.destruct { bpmValid := true, page := some pid, isDirty := d } =
      .ok [.unpin pid d] ∧
    (BasicPageGuard.moveFrom { bpmValid := true, page := some pid, isDirty := d }).2 =
      deadGuard ∧
    BasicPageGuard.drop deadGuard = .error () ∧
    ReadPageGuard.drop ⟨{ bpmValid := true, page := some pid, isDirty := d }⟩ =
      .ok (⟨deadGuard⟩, [.runlatch pid, .unpin pid d]) ∧
    ReadPageGuard.destruct ⟨deadGuard⟩ = .ok [] ∧
    WritePageGuard.drop ⟨{ bpmValid := true, page := some pid, isDirty := d }⟩ =
      .ok (⟨deadGuard⟩, [.wunlatch pid, .unpin pid d]) := by
  refine ⟨rfl, rfl, rfl, rfl, rfl, rfl, rfl, rfl⟩

end BusGuard

namespace BusBPT

open BusTrie (lookupA insertA)

/-- B+-tree leaf page (`b_plus_tree_leaf_page.h`): key/value slots, the
configured max size and the sibling pointer.  Modelled from the spec where the
page class implementation is not under `src/`: `Init` sets size 0 and
`next_page_id_ = INVALID_PAGE_ID (−1)`; `min_size = max_size / 2`. -/
structure LeafPage where
  kvs : List (Nat × Nat)
  maxSize : Nat
  next : Int
  deriving DecidableEq

/-- B+-tree internal page: slots of (key, child page id); slot 0's key is
unused (written as 0).  Modelled from the spec as for `LeafPage`. -/
structure InternalPage where
  slots : List (Nat × Nat)
  maxSize : Nat
  deriving DecidableEq

/-- A tree page is a leaf or an internal page (`IsLeafPage`). -/
inductive BPage where
  | leaf : LeafPage → BPage
  | internal : InternalPage → BPage
  deriving DecidableEq

/-- `GetSize`. -/
def BPage.size : BPage → Nat
  | .leaf l => l.kvs.length
  | .internal i => i.slots.length

/-- `GetMaxSize`. -/
def BPage.maxSize : BPage → Nat
  | .leaf l => l.maxSize
  | .internal i => i.maxSize

/-- B+-tree state: the page store seen through the buffer pool (page id →
page), the page allocator, the header page's `root_page_id_` (−1 = INVALID),
and the two size parameters. -/
structure BPT where
  pages : List (Nat × BPage)
  nextPid : Nat
  root : Int
  leafMax : Nat
  internalMax : Nat
  deriving DecidableEq

/-- A fresh tree after the constructor (`b_plus_tree.cpp` lines 11–23):
`root_page_id_ = INVALID_PAGE_ID`. -/
def bptEmpty (leafMax internalMax : Nat) : BPT :=
  { pages := [], nextPid := 0, root := -1, leafMax := leafMax, internalMax := internalMax }

/-- The scan of `BPlusTree::InternalKeyIndex` over slots `1..size−1` (the
first argument is `slots.drop 1`, the counter starts at 1): `some (i−1)` at
the first key greater than the target, `none` when the loop runs out. -/
def ikiGo (key : Nat) : List (Nat × Nat) → Nat → Option Nat
  | [], _ => none
  | (k, _) :: rest, i => if key < k then some (i - 1) else ikiGo key rest (i + 1)

/-- `BPlusTree::InternalKeyIndex` (lines 592–606): the loop above; when it
completes, `i = size` and the result is `size − 1`. -/
def internalKeyIndex (p : InternalPage) (key : Nat) : Nat :=
  match ikiGo key (p.slots.drop 1) 1 with
  | some r => r
  | none => p.slots.length - 1

/-- `BPlusTree::LeafKeyIndex` (lines 613–622): slot of the equal key, `none`
for the C++ −1. -/
def leafKeyIndex (leaf : LeafPage) (key : Nat) : Option Nat :=
  leaf.kvs.findIdx? (fun kv => kv.1 = key)

/-- `BPlusTree::IsSafeModify` for inserts (lines 630–635): `size + 1 ≤
max_size`. -/
def isSafeIns (page : BPage) : Bool :=
  page.size + 1 ≤ page.maxSize

/-- The duplicate/position scan over a leaf in `Insert` (lines 142–158):
equal key → duplicate (`none`); the first greater key gives the insert
position; otherwise the position is the leaf size. -/
def leafScanGo (key : Nat) : List (Nat × Nat) → Nat → Option Nat
  | [], i => some i
  | (k0, _) :: rest, i =>
    if key = k0 then none
    else if k0 < key then leafScanGo key rest (i + 1)
    else some i

/-- The search loop of `GetValue` (lines 42–75), with fuel for the descent. -/
def getLoop (t : BPT) (key : Nat) : Nat → Nat → Option (Option Nat)
  | _, 0 => none
  | pid, fuel + 1 =>
    match lookupA t.pages pid with
    | some (.leaf lp) =>
      match leafKeyIndex lp key with
      | some i => some (some (lp.kvs.getD i (0, 0)).2)
      | none => some none
    | some (.internal ip) =>
      getLoop t key (ip.slots.getD (internalKeyIndex ip key) (0, 0)).2 fuel
    | none => none

/-- `BPlusTree::GetValue`: `some (some v)` = found, `some none` = not found,
`none` = fuel exhausted or a dangling page id. -/
def BPT.getValue (t : BPT) (key : Nat) (fuel : Nat) : Option (Option Nat) :=
  if t.root = -1 then some none
  else getLoop t key t.root.toNat fuel

/-- Result of the descent loop of `Insert` (lines 117–160). -/
structure DescentRes where
  writeSet : List Nat
  headerHeld : Bool
  leafPid : Nat
  dup : Bool
  leafPos : Nat
  deriving DecidableEq

/-- The descent loop of `Insert`: release everything held (header and write
set) at each insert-safe node, push the current page, descend through
`InternalKeyIndex`, and scan the reached leaf. -/
def insertLoop (t : BPT) (key : Nat) : Bool → List Nat → Nat → Nat → Option DescentRes
  | _, _, _, 0 => none
  | headerHeld, writeSet, pid, fuel + 1 =>
    match lookupA t.pages pid with
    | none => none
    | some page =>
      let safe := isSafeIns page
      let headerHeld1 := if safe then false else headerHeld
      let ws1 := (if safe then [] else writeSet) ++ [pid]
      match page with
      | .internal ip =>
        insertLoop t key headerHeld1 ws1 (ip.slots.getD (internalKeyIndex ip key) (0, 0)).2 fuel
      | .leaf lp =>
        match leafScanGo key lp.kvs 0 with
        | none =>
          some { writeSet := ws1, headerHeld := headerHeld1, leafPid := pid,
                 dup := true, leafPos := 0 }
        | some pos =>
          some { writeSet := ws1, headerHeld := headerHeld1, leafPid := pid,
                 dup := false, leafPos := pos }

/-- `BPlusTree::InsertIntoLeaf` (lines 689–695): grow by one and shift the
slots from position `i` one to the right (`MoveLeafChild`), then store the
pair at `i`. -/
def insertIntoLeaf (l : LeafPage) (i : Nat) (k v : Nat) : LeafPage :=
  { l with kvs := l.kvs.insertIdx i (k, v) }

/-- `BPlusTree::InsertIntoInternal` (lines 697–704). -/
def insertIntoInternal (p : InternalPage) (i : Nat) (k : Nat) (child : Nat) : InternalPage :=
  { p with slots := p.slots.insertIdx i (k, child) }

/-- `BPlusTree::SplitLeaf` (lines 657–671): allocate a new page, move the top
`min_size` entries there, shrink the left page.  The new page's `Init` leaves
`next_page_id_ = INVALID`; NO sibling pointer is updated on either page. -/
def splitLeaf (t : BPT) (lpid : Nat) (l : LeafPage) : Nat × BPT × LeafPage × LeafPage :=
  let newSize := l.maxSize / 2
  let remain := l.kvs.length - newSize
  let pid := t.nextPid
  let l1 : LeafPage := { l with kvs := l.kvs.take remain }
  let l2 : LeafPage := { kvs := l.kvs.drop remain, maxSize := t.leafMax, next := -1 }
  (pid,
    { t with
      nextPid := t.nextPid + 1,
      pages := insertA (insertA t.pages lpid (.leaf l1)) pid (.leaf l2) },
    l1, l2)

/-- `BPlusTree::SplitInternal` (lines 673–687). -/
def splitInternal (t : BPT) (ipid : Nat) (p : InternalPage) : Nat × BPT × InternalPage × InternalPage :=
  let newSize := p.maxSize / 2
  let remain := p.slots.length - newSize
  let pid := t.nextPid
  let p1 : InternalPage := { p with slots := p.slots.take remain }
  let p2 : InternalPage := { slots := p.slots.drop remain, maxSize := t.internalMax }
  (pid,
    { t with
      nextPid := t.nextPid + 1,
      pages := insertA (insertA t.pages ipid (.internal p1)) pid (.internal p2) },
    p1, p2)

/-- The upward split-propagation loop of `Insert` (lines 185–211), walking the
retained write set from the deepest guard (the list here is the reversed
`write_set_`): at a safe internal page place the separator and stop; else
split it and propagate.  Returns the final tree, separator key, right child
and `splited_pid`. -/
def upLoop (t : BPT) : List Nat → Nat → Nat → Nat → Option (BPT × Nat × Nat × Nat)
  | [], splitKey, pid, splitedPid => some (t, splitKey, pid, splitedPid)
  | wpid :: rest, splitKey, pid, splitedPid =>
    match lookupA t.pages wpid with
    | some (.internal ip) =>
      let idx := internalKeyIndex ip splitKey + 1
      if isSafeIns (.internal ip) then
        some ({ t with pages := (insertA t.pages wpid
                  (.internal (insertIntoInternal ip idx splitKey pid))) },
              splitKey, pid, splitedPid)
      else
        let res := splitInternal t wpid ip
        let pid2 := res.1
        let t1 := res.2.1
        let p1 := res.2.2.1
        let p2 := res.2.2.2
        let remain := p1.slots.length
        let t2 : BPT :=
          if remain ≤ idx then
            { t1 with pages := (insertA t1.pages pid2
                (.internal (insertIntoInternal p2 (idx - remain) splitKey pid))) }
          else
            { t1 with pages := (insertA t1.pages wpid
                (.internal (insertIntoInternal p1 idx splitKey pid))) }
        match lookupA t2.pages pid2 with
        | some (BPage.internal p2f) =>
          upLoop t2 rest (p2f.slots.getD 0 (0, 0)).1 pid2 wpid
        | _ => none
    | _ => none

/-- `BPlusTree::Insert` (lines 88–226).  `none` = fuel exhausted or a
malformed page store; otherwise `some (inserted?, new tree)`. -/
def BPT.insert (t : BPT) (key v : Nat) (fuel : Nat) : Option (Bool × BPT) :=
  if t.root = -1 then
    -- empty tree (lines 94–104): a fresh leaf becomes the root
    let pid := t.nextPid
    let leaf : LeafPage := { kvs := [(key, v)], maxSize := t.leafMax, next := -1 }
    let t1 : BPT :=
      { t with pages := insertA t.pages pid (.leaf leaf), nextPid := pid + 1, root := pid }
    some (true, t1)
  else
    let ctxRoot := t.root.toNat
    match insertLoop t key true [] ctxRoot fuel with
    | none => none
    | some d =>
      if d.dup then some (false, t)
      else
        match lookupA t.pages d.leafPid with
        | some (.leaf leaf) =>
          if isSafeIns (.leaf leaf) then
            some (true, { t with pages := (insertA t.pages d.leafPid
              (.leaf (insertIntoLeaf leaf d.leafPos key v))) })
          else
            -- split the leaf (lines 169–183)
            let res := splitLeaf t d.leafPid leaf
            let pid := res.1
            let t1 := res.2.1
            let l1 := res.2.2.1
            let l2 := res.2.2.2
            let remain := l1.kvs.length
            let t2 :=
              if remain ≤ d.leafPos then
                { t1 with pages := (insertA t1.pages pid
                    (.leaf (insertIntoLeaf l2 (d.leafPos - remain) key v))) }
              else
                { t1 with pages := (insertA t1.pages d.leafPid
                    (.leaf (insertIntoLeaf l1 d.leafPos key v))) }
            match lookupA t2.pages pid with
            | some (BPage.leaf l2f) =>
              let splitKey := (l2f.kvs.getD 0 (0, 0)).1
              match upLoop t2 d.writeSet.dropLast.reverse splitKey pid d.leafPid with
              | none => none
              | some (t3, splitKey1, pid1, splitedPid) =>
                if splitedPid = ctxRoot then
                  -- new root (lines 213–224)
                  let rootPid := t3.nextPid
                  let newRoot : InternalPage :=
                    { slots := [(0, splitedPid), (splitKey1, pid1)], maxSize := t3.internalMax }
                  let t4 : BPT :=
                    { t3 with
                      pages := insertA t3.pages rootPid (.internal newRoot),
                      nextPid := t3.nextPid + 1,
                      root := rootPid }
                  some (true, t4)
                else some (true, t3)
            | _ => none
        | _ => none

/-- Keys collected by following the leaf sibling chain from a page id. -/
def leafChainKeys (t : BPT) : Int → Nat → List Nat
  | _, 0 => []
  | pid, fuel + 1 =>
    if pid = -1 then []
    else
      match lookupA t.pages pid.toNat with
      | some (.leaf l) => l.kvs.map (·.1) ++ leafChainKeys t l.next fuel
      | _ => []

/-- One insert step with fuel 10, used for concrete runs. -/
def c2ins (t : BPT) (k : Nat) : BPT :=
  match t.insert k k 10 with
  | some (_, t1) => t1
  | none => t

/-- Inserting 1, 2, 3, 4 into an empty tree with `leaf_max_size = 3`,
`internal_max_size = 3`. -/
def c2tree : BPT := c2ins (c2ins (c2ins (c2ins (bptEmpty 3 3) 1) 2) 3) 4

/-- C2: inserting 1..4 splits the first leaf (page 0) into itself and a new
right sibling (page 1) under a new internal root (page 2) — but `SplitLeaf`
never assigns `next_page_id_` on either leaf, so the left leaf's sibling
pointer stays INVALID (−1) instead of naming page 1, and the chain walked from
the leftmost leaf yields only [1, 2] although the tree holds keys 1..4.  The
claim requires the split to link the new right sibling into the chain. -/
theorem claim_C2_code_bug :
    c2tree.root = 2 ∧
    lookupA c2tree.pages 2 =
      some (.internal { slots := [(0, 0), (3, 1)], maxSize := 3 }) ∧
    lookupA c2tree.pages 0 =
      some (.leaf { kvs := [(1, 1), (2, 2)], maxSize := 3, next := -1 }) ∧
    lookupA c2tree.pages 1 =
      some (.leaf { kvs := [(3, 3), (4, 4)], maxSize := 3, next := -1 }) ∧
    leafChainKeys c2tree 0 10 = [1, 2] := by
  decide

/-! Claim C7: duplicate insert. -/

theorem lookupA_mem {α : Type} (l : List (Nat × α)) (c : Nat) (x : α)
    (h : lookupA l c = some x) : (c, x) ∈ l := by
  induction l with
  | nil => simp [BusTrie.lookupA] at h
  | cons p rest ih =>
    obtain ⟨c1, x1⟩ := p
    simp only [BusTrie.lookupA] at h
    by_cases hc : c1 = c
    · subst hc
      simp only [if_pos rfl] at h
      cases h
      exact List.mem_cons_self _ _
    · rw [if_neg hc] at h
      exact List.mem_cons_of_mem _ (ih h)

/-- Keys of consecutive leaf slots are strictly increasing. -/
def sortedKeys : List (Nat × Nat) → Bool
  | [] => true
  | [_] => true
  | a :: b :: rest => decide (a.1 < b.1) && sortedKeys (b :: rest)

/-- Every leaf page in the store has strictly increasing keys — the leaf part
of the B+-tree data-model invariant. -/
def leavesSorted (t : BPT) : Bool :=
  t.pages.all (fun p =>
    match p.2 with
    | .leaf l => sortedKeys l.kvs
    | .internal _ => true)

theorem sortedKeys_cons (a : Nat × Nat) (rest : List (Nat × Nat))
    (h : sortedKeys (a :: rest) = true) :
    sortedKeys rest = true ∧ ∀ kv ∈ rest, a.1 < kv.1 := by
  induction rest generalizing a with
  | nil => exact ⟨rfl, by simp⟩
  | cons b rest2 ih =>
    simp only [sortedKeys, Bool.and_eq_true, decide_eq_true_eq] at h
    obtain ⟨hab, hrest⟩ := h
    obtain ⟨h1, h2⟩ := ih b hrest
    refine ⟨hrest, ?_⟩
    intro kv hkv
    rcases List.mem_cons.mp hkv with rfl | hkv2
    · exact hab
    · exact lt_trans hab (h2 kv hkv2)

theorem findIdxSome_mem {α : Type} (p : α → Bool) (l : List α)
    (h : (l.findIdx? p).isSome = true) : ∃ x ∈ l, p x = true := by
  rw [List.findIdx?_isSome] at h
  exact List.any_eq_true.mp h

/-- On a sorted leaf, the duplicate scan of `Insert` reports a duplicate
whenever `LeafKeyIndex` finds the key. -/
theorem leafScanGo_eq_none (key : Nat) (kvs : List (Nat × Nat))
    (hs : sortedKeys kvs = true)
    (hfind : (kvs.findIdx? (fun kv => kv.1 = key)).isSome = true) :
    ∀ i, leafScanGo key kvs i = none := by
  induction kvs with
  | nil => rw [List.findIdx?_nil] at hfind; cases hfind
  | cons a rest ih =>
    intro i
    obtain ⟨hrest, hlt⟩ := sortedKeys_cons a rest hs
    rw [List.findIdx?_isSome] at hfind
    by_cases hak : a.1 = key
    · simp only [leafScanGo, if_pos hak.symm]
    · have hra : rest.any (fun kv => decide (kv.1 = key)) = true := by
        rw [List.any_cons] at hfind
        simpa [hak] using hfind
      obtain ⟨x, hx, hpx⟩ := List.any_eq_true.mp hra
      have hxk : x.1 = key := by simpa using hpx
      have hlt2 : a.1 < key := hxk ▸ hlt x hx
      have hks : ¬ key = a.1 := fun h => hak h.symm
      simp only [leafScanGo, if_neg hks, if_pos hlt2]
      exact ih hrest (by rw [List.findIdx?_isSome]; exact hra) (i + 1)

/-- `GetValue`'s descent and `Insert`'s descent follow the same child at every
internal page; when the key is found, the insert descent reports a
duplicate. -/
theorem insertLoop_dup (t : BPT) (key : Nat) (hs : leavesSorted t = true) :
    ∀ (fuel : Nat) (pid : Nat) (hh : Bool) (ws : List Nat) (v0 : Nat),
      getLoop t key pid fuel = some (some v0) →
      ∃ d, insertLoop t key hh ws pid fuel = some d ∧ d.dup = true := by
  intro fuel
  induction fuel with
  | zero => intro pid hh ws v0 h; cases h
  | succ fuel ih =>
    intro pid hh ws v0 h
    cases hl : lookupA t.pages pid with
    | none => rw [getLoop, hl] at h; cases h
    | some page =>
      cases page with
      | leaf lp =>
        have hsl : sortedKeys lp.kvs = true := by
          have hm := lookupA_mem _ _ _ hl
          have := List.all_eq_true.mp hs _ hm
          simpa using this
        simp only [getLoop, hl] at h
        cases hfind : leafKeyIndex lp key with
        | none => rw [hfind] at h; cases Option.some_inj.mp h
        | some i =>
          have hfs : (lp.kvs.findIdx? (fun kv => kv.1 = key)).isSome = true := by
            unfold leafKeyIndex at hfind
            rw [hfind]; rfl
          have hscan := leafScanGo_eq_none key lp.kvs hsl hfs 0
          refine ⟨{ writeSet := (if isSafeIns (.leaf lp) then [] else ws) ++ [pid],
                    headerHeld := if isSafeIns (.leaf lp) then false else hh,
                    leafPid := pid, dup := true, leafPos := 0 }, ?_, rfl⟩
          simp only [insertLoop, hl, hscan]
      | internal ip =>
        simp only [getLoop, hl] at h
        obtain ⟨d, hd, hdup⟩ := ih _ (if isSafeIns (.internal ip) then false else hh)
          ((if isSafeIns (.internal ip) then [] else ws) ++ [pid]) v0 h
        refine ⟨d, ?_, hdup⟩
        simp only [insertLoop, hl]
        exact hd

/-- C7: on every B+-tree state whose leaves are sorted (the data-model
invariant) and every key already present (the tree's own `GetValue` finds
it), `Insert` returns false and leaves the tree — every page and the root
page id — unchanged. -/
theorem claim_C7 (t : BPT) (key v fuel : Nat)
    (hs : leavesSorted t = true)
    (hpres : ∃ v0, t.getValue key fuel = some (some v0)) :
    t.insert key v fuel = some (false, t) := by
  obtain ⟨v0, hv⟩ := hpres
  unfold BPT.getValue at hv
  by_cases hroot : t.root = -1
  · rw [if_pos hroot] at hv
    cases Option.some_inj.mp hv
  · rw [if_neg hroot] at hv
    obtain ⟨d, hd, hdup⟩ := insertLoop_dup t key hs fuel t.root.toNat true [] v0 hv
    unfold BPT.insert
    rw [if_neg hroot]
    dsimp only
    rw [hd]
    simp [hdup]

/-- Witness for C7: inserting the already-present key 3 into the 4-key tree
returns false and leaves the tree unchanged. -/
theorem claim_C7_witness :
    leavesSorted c2tree = true ∧ c2tree.insert 3 77 10 = some (false, c2tree) :=
  ⟨by decide, claim_C7 c2tree 3 77 10 (by decide) ⟨3, by decide⟩⟩

end BusBPT

namespace BusIter

/-- Iterator state: the `PageId()` of the held read guard (−1 = empty guard)
and the slot position (`index_iterator.cpp` lines 14–19). -/
structure IndexIterator where
  pageId : Int
  pos : Nat
  deriving DecidableEq

/-- The default-constructed end iterator (line 15, and `BPlusTree::End`):
empty guard, whose `PageId()` is INVALID, at position 0. -/
def iterEnd : IndexIterator := { pageId := -1, pos := 0 }

/-- `IndexIterator::IsEnd` (line 34). -/
def IndexIterator.isEnd (it : IndexIterator) : Bool := it.pageId = -1

/-- `operator==` (lines 25–27): compares `(PageId(), pos_)`. -/
def iterEq (a b : IndexIterator) : Bool := a.pageId == b.pageId && a.pos == b.pos

/-- `operator++` (lines 42–57), where `leaf` is the page held by the
iterator's guard: advance the position; at the end of the leaf reset the
position and either drop the guard (end state) when `next_page_id_` is
INVALID, or fetch the next leaf — into a local variable `guard_` that SHADOWS
the member (line 55), so the fetched guard is discarded at once and the
iterator keeps its current page. -/
def IndexIterator.inc (leaf : BusBPT.LeafPage) (it : IndexIterator) : IndexIterator :=
  let pos1 := it.pos + 1
  if pos1 < leaf.kvs.length then { it with pos := pos1 }
  else if leaf.next = -1 then { pageId := -1, pos := 0 }
  else { it with pos := 0 }

/-- C3: at the last slot of a two-entry leaf (page 1) whose `next_page_id_`
is 2, `operator++` leaves the iterator at slot 0 of the SAME page 1 (the
fetched guard lands in a shadowed local), not at slot 0 of page 2 as the
claim states; the INVALID branch does reach the end state, which equals
`End()`. -/
theorem claim_C3_code_bug :
    IndexIterator.inc { kvs := [(10, 10), (20, 20)], maxSize := 3, next := 2 }
        { pageId := 1, pos := 1 } = { pageId := 1, pos := 0 } ∧
    ({ pageId := 1, pos := 0 } : IndexIterator) ≠ { pageId := 2, pos := 0 } ∧
    IndexIterator.inc { kvs := [(10, 10), (20, 20)], maxSize := 3, next := -1 }
        { pageId := 1, pos := 1 } = iterEnd ∧
    iterEnd.isEnd = true ∧
    iterEq (IndexIterator.inc { kvs := [(10, 10), (20, 20)], maxSize := 3, next := -1 }
        { pageId := 1, pos := 1 }) iterEnd = true := by
  decide

end BusIter
